import Mathlib

/-!
Resolution of syscall numbers and the generated tables (`sysgen/syscallnr.go`)

A shallow embedding of `sysgen/syscallnr.go`.  Go values become Lean values:

* `string` is `String`, `[]T` is `List T`, `int` is `Int` (64 bits wide, the
  conversion `int(n)` from `uint64` is `toInt`), `uint64` is `Nat` below `2^64`;
* a Go `map` is a list of entries whose keys are pairwise distinct; reading a
  missing key gives the zero value, and ranging over the map visits the entries
  in the order of the list, which stands for the enumeration order of one run;
* the calls to the collaborators that are not part of this file
  (`fetchValues`, `writeSource`, `writeFile`) are recorded, in order, in a
  trace of `Event`s; `fetchValues` is a parameter;
* `failf` and a run-time panic stop the run: they are a `Failure` in the
  `Outcome`, which keeps the state and the trace reached at that point.
-/

namespace Sysgen

/-! ## Data model -/

/-- An entry of the syscall list handed in by the caller. -/
structure Syscall where
  Name : String
  CallName : String
deriving DecidableEq

/-- The type `Arch`. -/
structure Arch where
  GOARCH : String
  CARCH : List String
  KernelHeaderArch : String
  KernelInclude : String
  Numbers : List Int
deriving DecidableEq

/-- The registry `archs`. -/
def archs : List Arch :=
  [ ⟨"amd64", ["__x86_64__"], "x86", "asm/unistd.h", []⟩,
    ⟨"arm64", ["__aarch64__"], "arm64", "asm/unistd.h", []⟩,
    ⟨"ppc64le", ["__ppc64__", "__PPC64__", "__powerpc64__"], "powerpc", "asm/unistd.h", []⟩ ]

/-- The synthetic table `syzkalls`, its entries in the order of the source text. -/
def syzkalls : List (String × Int) :=
  [ ("syz_open_dev", 1000001),
    ("syz_open_pts", 1000002),
    ("syz_fuse_mount", 1000003),
    ("syz_fuseblk_mount", 1000004) ]

/-- The type `SyscallData`. -/
structure SyscallData where
  Name : String
  NR : Int
deriving DecidableEq

/-- The type `ArchData`. -/
structure ArchData where
  CARCH : List String
  Calls : List SyscallData
deriving DecidableEq

/-- The type `SyscallsData`. -/
structure SyscallsData where
  Archs : List ArchData
  FakeCalls : List SyscallData
deriving DecidableEq

/-! ## Go maps -/

/-- Reading `m[k]` from a `map[string]int`: the value stored under `k`, and the
zero value when `k` is not a key. -/
def mapIndex (m : List (String × Int)) (k : String) : Int :=
  match m.lookup k with
  | some v => v
  | none => 0

/-- The assignment `m[k] = v` on a `map[string]string`: the entry under `k` is
replaced when there is one, and a new entry is added otherwise. -/
def mapAssign : List (String × String) → String → String → List (String × String)
  | [], k, v => [(k, v)]
  | (k0, v0) :: m, k, v => if k0 = k then (k0, v) :: m else (k0, v0) :: mapAssign m k v

/-! ## strconv -/

/-- The two errors of `strconv.ParseUint`. -/
inductive NumError where
  | ErrSyntax
  | ErrRange
deriving DecidableEq

/-- Two to the power 64, the number of values of a `uint64`. -/
def two64 : Nat := 18446744073709551616

/-- The constant `maxUint64` (`1<<64 - 1`). -/
def maxUint64 : Nat := 18446744073709551615

/-- The `cutoff` of `ParseUint` for base 10: `maxUint64/10 + 1`, the smallest
number whose product with the base overflows. -/
def cutoff : Nat := maxUint64 / 10 + 1

/-- The loop of `strconv.ParseUint(s, 10, 64)` over the characters of `s`; `n`
is the `uint64` accumulated so far.  A letter is a digit of value at least 10,
which base 10 refuses, and every other character that is not a decimal digit
is refused as well. -/
def parseUintLoop : List Char → Nat → Except NumError Nat
  | [], n => .ok n
  | c :: cs, n =>
    if '0' ≤ c ∧ c ≤ '9' then
      let v := c.toNat - '0'.toNat
      if n ≥ cutoff then .error .ErrRange
      else
        let n10 := (n * 10) % two64
        let n1 := (n10 + v) % two64
        if n1 < n10 ∨ n1 > maxUint64 then .error .ErrRange
        else parseUintLoop cs n1
    else .error .ErrSyntax

/-- The call `strconv.ParseUint(s, 10, 64)`. -/
def ParseUint (s : String) : Except NumError Nat :=
  if s.data.length < 1 then .error .ErrSyntax else parseUintLoop s.data 0

/-- The conversion `int(n)` of a `uint64` to the 64-bit `int`. -/
def toInt (n : Nat) : Int :=
  if n % two64 < 9223372036854775808 then ((n % two64 : Nat) : Int)
  else ((n % two64 : Nat) : Int) - (two64 : Int)

/-- The decimal text of an `int`: `strconv.Itoa`, which is also what a template
prints for an `int` field. -/
def Itoa (i : Int) : String :=
  match i with
  | Int.ofNat n => Nat.repr n
  | Int.negSucc n => "-" ++ Nat.repr (n + 1)

/-- A base-10 unsigned integer as a text: at least one character, and only the
digits `0` to `9`. -/
def isDecimal (s : String) : Bool :=
  !s.data.isEmpty && s.data.all Char.isDigit

/-- The number a text of decimal digits denotes, most significant digit first. -/
def decimalValue (s : String) : Nat :=
  s.data.foldl (fun n c => 10 * n + (c.toNat - 48)) 0

/-- The integer a decimal text with an optional leading minus sign denotes. -/
def decimalInt (s : String) : Int :=
  match s.data with
  | '-' :: cs => - (decimalValue ⟨cs⟩ : Int)
  | _ => (decimalValue s : Int)

/-! ## Trace, failure, outcome -/

/-- A call to a collaborator outside this file, with its arguments. -/
inductive Event where
  | fetchValues (arch : String) (vals : List String) (includes : List String)
      (defines : List (String × String))
  | writeSource (file : String) (data : String)
  | writeFile (file : String) (data : String)
deriving DecidableEq

/-- What stops a run. -/
inductive Failure where
  /-- The call `failf("failed to parse syscall number '%v': %v", s, err)`. -/
  | parseNumber (s : String) (err : NumError)
  /-- The run-time panic of `a[i]` with `i` out of range. -/
  | indexOutOfRange (i : Nat) (len : Nat)
deriving DecidableEq

/-- The state a procedure leaves behind, the calls it made, and whether it was
stopped. -/
structure Outcome (α : Type) where
  value : α
  trace : List Event
  failure : Option Failure

/-- The collaborator `fetchValues(arch, vals, includes, defines)`. -/
abbrev Probe := String → List String → List String → List (String × String) → List String

/-! ## fetchSyscallsNumbers -/

/-- The first loop of `fetchSyscallsNumbers`: from the `vals` and `defines`
built so far, those after the remaining syscalls. -/
def buildRequest (tbl : List (String × Int)) :
    List Syscall → List String × List (String × String) → List String × List (String × String)
  | [], acc => acc
  | sc :: rest, (vals, defines) =>
    let name := "__NR_" ++ sc.CallName
    let vals := vals ++ [name]
    let defines := mapAssign defines name "-1"
    let nr := mapIndex tbl sc.CallName
    let defines := if nr ≠ 0 then mapAssign defines name (Itoa nr) else defines
    buildRequest tbl rest (vals, defines)

/-- The second loop of `fetchSyscallsNumbers`, over the strings the probe
returned: each is parsed and appended to `arch.Numbers`; the first one that
does not parse stops the run. -/
def parseValues : List String → Arch → Arch × Option Failure
  | [], arch => (arch, none)
  | s :: rest, arch =>
    match ParseUint s with
    | .error err => (arch, some (.parseNumber s err))
    | .ok n => parseValues rest { arch with Numbers := arch.Numbers ++ [toInt n] }

/-- The strings `fetchValues` returns to `fetchSyscallsNumbers(arch, syscalls)`. -/
def probeResult (fetchValues : Probe) (tbl : List (String × Int)) (arch : Arch)
    (syscalls : List Syscall) : List String :=
  fetchValues arch.KernelHeaderArch (buildRequest tbl syscalls ([], [])).1 [arch.KernelInclude]
    (buildRequest tbl syscalls ([], [])).2

/-- The default `fetchSyscallsNumbers` hands to the probe for the symbol of the
kernel-facing name `callName`: the entry of `defines` under that symbol. -/
def suppliedDefault (tbl : List (String × Int)) (syscalls : List Syscall) (callName : String) :
    Option String :=
  (buildRequest tbl syscalls ([], [])).2.lookup ("__NR_" ++ callName)

/-- The procedure `fetchSyscallsNumbers(arch, syscalls)`; `value` is the
architecture as the procedure leaves it. -/
def fetchSyscallsNumbers (fetchValues : Probe) (tbl : List (String × Int)) (arch : Arch)
    (syscalls : List Syscall) : Outcome Arch :=
  let includes := [arch.KernelInclude]
  let req := buildRequest tbl syscalls ([], [])
  let res := parseValues (fetchValues arch.KernelHeaderArch req.1 includes req.2) arch
  ⟨res.1, [Event.fetchValues arch.KernelHeaderArch req.1 includes req.2], res.2⟩

/-! ## Templates -/

/-- The text `archTempl` renders for an architecture: the `range` over
`Numbers` prints each number followed by a comma and a blank. -/
def archTempl (arch : Arch) : String :=
  "// AUTOGENERATED FILE\n\n// +build " ++ arch.GOARCH
    ++ "\n\npackage sys\n\n// Maps internal syscall ID onto kernel syscall number.\nvar numbers = []int\x7b "
    ++ String.join (arch.Numbers.map fun nr => Itoa nr ++ ", ")
    ++ " \x7d\n"

/-- The body of the `range` over `FakeCalls` in `syscallsTempl`. -/
def defineLine (c : SyscallData) : String :=
  "#define __NR_" ++ c.Name ++ "\t" ++ Itoa c.NR ++ "\n"

/-- The `#if` line of an architecture block in `syscallsTempl`, without its
line end. -/
def guardLine (carch : List String) : String :=
  "#if " ++ String.join (carch.map fun cdef => "defined(" ++ cdef ++ ") || ") ++ "0"

/-- The body of the `range` over the `Calls` of an architecture in
`syscallsTempl`. -/
def callLine (c : SyscallData) : String :=
  "\t\x7b\"" ++ c.Name ++ "\", " ++ Itoa c.NR ++ "\x7d,\n"

/-- The body of the `range` over `Archs` in `syscallsTempl`. -/
def archBlock (a : ArchData) : String :=
  "\n" ++ guardLine a.CARCH ++ "\ncall_t syscalls[] = \x7b\n"
    ++ String.join (a.Calls.map callLine)
    ++ "\n\x7d;\n#endif\n"

/-- The text `syscallsTempl` renders for the render data. -/
def syscallsTempl (data : SyscallsData) : String :=
  "// AUTOGENERATED FILE\n\n"
    ++ String.join (data.FakeCalls.map defineLine)
    ++ "\n\nstruct call_t \x7b\n\tconst char*\tname;\n\tint\t\tsys_nr;\n\x7d;\n\n"
    ++ String.join (data.Archs.map archBlock)
    ++ "\n"

/-! ## generateSyscallsNumbersArch -/

/-- The procedure `generateSyscallsNumbersArch(arch, syscalls)`: the one call it
makes, `writeSource` with the path and the rendered text.  Rendering into a
`bytes.Buffer` does not fail on an `Arch`. -/
def generateSyscallsNumbersArch (arch : Arch) (_syscalls : List Syscall) : Event :=
  Event.writeSource ("sys/sys_" ++ arch.GOARCH ++ ".go") (archTempl arch)

/-! ## generateExecutorSyscalls -/

/-- The comparison `<` of two Go strings, on their characters: the first
position where they differ decides, and a proper prefix is smaller. -/
def stringLess : List Char → List Char → Bool
  | [], [] => false
  | [], _ :: _ => true
  | _ :: _, [] => false
  | a :: as, b :: bs =>
    if a < b then true else if b < a then false else stringLess as bs

/-- The method `SyscallArray.Less`, on the two elements compared. -/
def SyscallArray.Less (a b : SyscallData) : Bool := stringLess a.Name.data b.Name.data

/-- One pass of the inner loop of insertion sort: `x` goes in front of the first
element it is `Less` than. -/
def sortInsert (x : SyscallData) : List SyscallData → List SyscallData
  | [] => [x]
  | y :: ys => if SyscallArray.Less x y then x :: y :: ys else y :: sortInsert x ys

/-- The call `sort.Sort(SyscallArray(a))`, as an insertion sort: the elements
are taken from left to right and each is inserted into the sorted prefix. -/
def sortSyscallArray (a : List SyscallData) : List SyscallData :=
  a.foldl (fun sorted x => sortInsert x sorted) []

/-- The inner loop of `generateExecutorSyscalls` for one architecture: `i` is
the index of the next syscall, `calls` what was appended so far.  Reading
`arch.Numbers[i]` out of range panics. -/
def buildCalls (arch : Arch) : List Syscall → Nat → List SyscallData →
    Except Failure (List SyscallData)
  | [], _, calls => .ok calls
  | c :: rest, i, calls =>
    match arch.Numbers[i]? with
    | none => .error (.indexOutOfRange i arch.Numbers.length)
    | some nr => buildCalls arch rest (i + 1) (calls ++ [⟨c.Name, nr⟩])

/-- The loop of `generateExecutorSyscalls` over the registry; `acc` is
`data.Archs` so far. -/
def buildArchs (syscalls : List Syscall) : List Arch → List ArchData →
    Except Failure (List ArchData)
  | [], acc => .ok acc
  | arch :: rest, acc =>
    match buildCalls arch syscalls 0 [] with
    | .error f => .error f
    | .ok calls => buildArchs syscalls rest (acc ++ [⟨arch.CARCH, calls⟩])

/-- The loop of `generateExecutorSyscalls` over the map `syzkalls`, in the
enumeration order `tbl`; `acc` is `data.FakeCalls` so far. -/
def buildFakeCalls : List (String × Int) → List SyscallData → List SyscallData
  | [], acc => acc
  | (name, nr) :: rest, acc => buildFakeCalls rest (acc ++ [⟨name, nr⟩])

/-- The render data `generateExecutorSyscalls` builds from the registry `reg`,
the synthetic table as enumerated, and the syscall list. -/
def executorData (reg : List Arch) (tbl : List (String × Int)) (syscalls : List Syscall) :
    Except Failure SyscallsData :=
  match buildArchs syscalls reg [] with
  | .error f => .error f
  | .ok as => .ok ⟨as, sortSyscallArray (buildFakeCalls tbl [])⟩

/-- The procedure `generateExecutorSyscalls(syscalls)` on the registry `reg`:
it writes the rendered header, unless building the data panicked. -/
def generateExecutorSyscalls (reg : List Arch) (tbl : List (String × Int))
    (syscalls : List Syscall) : Outcome Unit :=
  match executorData reg tbl syscalls with
  | .error f => ⟨(), [], some f⟩
  | .ok data => ⟨(), [Event.writeFile "executor/syscalls.h" (syscallsTempl data)], none⟩

/-! ## generateSyscallsNumbers -/

/-- The loop of `generateSyscallsNumbers` over the registry; `value` is the
registry as the loop leaves it. -/
def resolveArchs (fetchValues : Probe) (tbl : List (String × Int)) (syscalls : List Syscall) :
    List Arch → Outcome (List Arch)
  | [] => ⟨[], [], none⟩
  | arch :: rest =>
    let o := fetchSyscallsNumbers fetchValues tbl arch syscalls
    match o.failure with
    | some f => ⟨o.value :: rest, o.trace, some f⟩
    | none =>
      let w := generateSyscallsNumbersArch o.value syscalls
      let o2 := resolveArchs fetchValues tbl syscalls rest
      ⟨o.value :: o2.value, o.trace ++ w :: o2.trace, o2.failure⟩

/-- The procedure `generateSyscallsNumbers(syscalls)` on the registry `reg`. -/
def generateSyscallsNumbers (fetchValues : Probe) (tbl : List (String × Int)) (reg : List Arch)
    (syscalls : List Syscall) : Outcome (List Arch) :=
  let o := resolveArchs fetchValues tbl syscalls reg
  match o.failure with
  | some f => ⟨o.value, o.trace, some f⟩
  | none =>
    let e := generateExecutorSyscalls o.value tbl syscalls
    ⟨o.value, o.trace ++ e.trace, e.failure⟩

/-- The files written in a trace, in order: the path of each `writeSource` and
`writeFile` call. -/
def writtenFiles : List Event → List String
  | [] => []
  | Event.fetchValues _ _ _ _ :: t => writtenFiles t
  | Event.writeSource f _ :: t => f :: writtenFiles t
  | Event.writeFile f _ :: t => f :: writtenFiles t

/-! ## Concrete inputs -/

/-- The first architecture of the registry. -/
def amd64 : Arch := ⟨"amd64", ["__x86_64__"], "x86", "asm/unistd.h", []⟩

/-- The second architecture of the registry. -/
def arm64 : Arch := ⟨"arm64", ["__aarch64__"], "arm64", "asm/unistd.h", []⟩

/-- The third architecture of the registry. -/
def ppc64le : Arch :=
  ⟨"ppc64le", ["__ppc64__", "__PPC64__", "__powerpc64__"], "powerpc", "asm/unistd.h", []⟩

/-- A probe that resolves no symbol: for each one it returns the default it was
handed, as the text of the default. -/
def echoProbe : Probe :=
  fun _ vals _ defines => vals.map fun v =>
    match defines.lookup v with
    | some d => d
    | none => ""

/-- A probe that resolves no symbol and prints each default as the C program
of the probe does, as an `unsigned long`: a negative default comes back as its
value modulo `2^64`. -/
def unsignedProbe : Probe :=
  fun _ vals _ defines => vals.map fun v =>
    match defines.lookup v with
    | some "-1" => "18446744073709551615"
    | some d => d
    | none => "0"

/-- A probe that answers `0` for every symbol. -/
def zeroProbe : Probe := fun _ vals _ _ => vals.map fun _ => "0"

/-- A probe whose output is broken for the header subtree `arm64` and `0` for
every symbol elsewhere. -/
def brokenOnArm64 : Probe :=
  fun arch vals _ _ => if arch = "arm64" then ["abc"] else vals.map fun _ => "0"

/-- An architecture selected by the macro `__X__`, resolved to the one number
`0`. -/
def archX : Arch := ⟨"x", ["__X__"], "x", "asm/unistd.h", [0]⟩

/-- A probe that returns no value at all. -/
def emptyProbe : Probe := fun _ _ _ _ => []

/-- A probe that returns two values whatever it is asked. -/
def twoProbe : Probe := fun _ _ _ _ => ["0", "0"]

/-- A probe that returns the one value `2^64`, which does not fit a `uint64`. -/
def overflowProbe : Probe := fun _ _ _ _ => ["18446744073709551616"]

/-! ## The guard of an architecture block, as an expression of the C preprocessor -/

/-- The expressions of the C preprocessor a guard is made of: the constant `0`,
`defined(m)` for a macro name `m`, and `a || b`. -/
inductive CppExpr where
  | zero
  | defined (m : String)
  | or (a b : CppExpr)
deriving DecidableEq

/-- The text of an expression; the operator `||` associates to the left, so a
chain nested on the left is printed without parentheses. -/
def CppExpr.render : CppExpr → String
  | .zero => "0"
  | .defined m => "defined(" ++ m ++ ")"
  | .or a b => CppExpr.render a ++ " || " ++ CppExpr.render b

/-- The value of an expression in `#if`, given which macros are defined. -/
def CppExpr.eval (isDefined : String → Bool) : CppExpr → Bool
  | .zero => false
  | .defined m => isDefined m
  | .or a b => CppExpr.eval isDefined a || CppExpr.eval isDefined b

/-- The expression the guard line of `syscallsTempl` spells for the macros
`carch`: `defined(m1) || ... || defined(mk) || 0`, nested on the left as the C
grammar reads it, and `0` alone when there is no macro. -/
def guardExpr : List String → CppExpr
  | [] => .zero
  | m :: ms => .or (ms.foldl (fun e x => .or e (.defined x)) (.defined m)) .zero

/-! ## strconv: what `ParseUint` accepts -/

theorem decimal_foldl_ge (cs : List Char) (n : Nat) :
    n ≤ cs.foldl (fun n c => 10 * n + (c.toNat - 48)) n := by
  induction cs generalizing n with
  | nil => simp
  | cons c cs ih =>
    simp only [List.foldl_cons]
    exact le_trans (by omega) (ih _)

theorem char_digit_iff (c : Char) : ('0' ≤ c ∧ c ≤ '9') ↔ c.isDigit = true := by
  simp only [Char.isDigit, Bool.and_eq_true, decide_eq_true_eq]
  exact Iff.rfl

theorem char_digit_val (c : Char) (h : c.isDigit = true) : c.toNat - 48 ≤ 9 := by
  simp only [Char.isDigit, Bool.and_eq_true, decide_eq_true_eq] at h
  have h2 : c.val.toNat ≤ 57 := h.2
  show c.val.toNat - 48 ≤ 9
  omega

theorem parseUintLoop_ok_iff (cs : List Char) (n m : Nat) (hn : n < two64) :
    parseUintLoop cs n = .ok m ↔
      (cs.all Char.isDigit = true ∧
        cs.foldl (fun n c => 10 * n + (c.toNat - 48)) n = m ∧ m < two64) := by
  induction cs generalizing n with
  | nil =>
    simp only [parseUintLoop, List.all_nil, List.foldl_nil, true_and, Except.ok.injEq]
    constructor
    · rintro rfl; exact ⟨rfl, hn⟩
    · rintro ⟨h, _⟩; exact h
  | cons c cs ih =>
    simp only [parseUintLoop, List.all_cons, List.foldl_cons, Bool.and_eq_true]
    by_cases hd : c.isDigit = true
    · have hv := char_digit_val c hd
      have hv' : c.toNat - '0'.toNat = c.toNat - 48 := rfl
      rw [if_pos ((char_digit_iff c).mpr hd)]
      have hge := decimal_foldl_ge cs (10 * n + (c.toNat - 48))
      by_cases hc : n ≥ cutoff
      · rw [if_pos hc]
        simp only [cutoff, maxUint64, two64] at hc ⊢
        constructor
        · intro h; cases h
        · rintro ⟨_, h, hm⟩; omega
      · rw [if_neg hc]
        simp only [cutoff, maxUint64, two64, hv'] at hc hn ⊢
        by_cases hov : 18446744073709551616 ≤ 10 * n + (c.toNat - 48)
        · have h1 : (n * 10 % 18446744073709551616 + (c.toNat - 48)) % 18446744073709551616
              < n * 10 % 18446744073709551616 := by omega
          rw [if_pos (Or.inl h1)]
          constructor
          · intro h; cases h
          · rintro ⟨_, h, hm⟩; omega
        · have h1 : (n * 10 % 18446744073709551616 + (c.toNat - 48)) % 18446744073709551616
              = 10 * n + (c.toNat - 48) := by omega
          have h2 : ¬ ((n * 10 % 18446744073709551616 + (c.toNat - 48)) % 18446744073709551616
              < n * 10 % 18446744073709551616 ∨
              (n * 10 % 18446744073709551616 + (c.toNat - 48)) % 18446744073709551616
                > 18446744073709551615) := by omega
          rw [if_neg h2, h1]
          have := ih (10 * n + (c.toNat - 48)) (by simp only [two64]; omega)
          simp only [two64] at this
          rw [this]
          simp [hd]
    · rw [if_neg (fun h => hd ((char_digit_iff c).mp h))]
      constructor
      · intro h; cases h
      · rintro ⟨⟨h, _⟩, _⟩; exact absurd h hd

/-- What `ParseUint(s, 10, 64)` accepts: the decimal texts whose value fits 64
bits, and it returns that value. -/
theorem ParseUint_ok_iff (s : String) (m : Nat) :
    ParseUint s = .ok m ↔ (isDecimal s = true ∧ decimalValue s = m ∧ m < two64) := by
  unfold ParseUint isDecimal decimalValue
  by_cases he : s.data = []
  · simp [he]
  · have hl : ¬ s.data.length < 1 := by
      cases hs : s.data with
      | nil => exact absurd hs he
      | cons a l => simp
    rw [if_neg hl, parseUintLoop_ok_iff _ _ _ (by simp [two64])]
    simp [he]

theorem ParseUint_error_iff (s : String) :
    (∃ e, ParseUint s = .error e) ↔ ¬ (isDecimal s = true ∧ decimalValue s < two64) := by
  constructor
  · rintro ⟨e, he⟩ ⟨h1, h2⟩
    have := (ParseUint_ok_iff s (decimalValue s)).mpr ⟨h1, rfl, h2⟩
    rw [he] at this; cases this
  · intro h
    cases hp : ParseUint s with
    | error e => exact ⟨e, rfl⟩
    | ok m =>
      have := (ParseUint_ok_iff s m).mp hp
      exact absurd ⟨this.1, this.2.1 ▸ this.2.2⟩ h

/-! ## The two loops of `fetchSyscallsNumbers` -/

theorem parseValues_ok (r : List String) (arch : Arch)
    (h : ∀ s ∈ r, isDecimal s = true ∧ decimalValue s < two64) :
    parseValues r arch =
      ({ arch with Numbers := arch.Numbers ++ r.map fun s => toInt (decimalValue s) }, none) := by
  induction r generalizing arch with
  | nil => simp [parseValues]
  | cons s r ih =>
    have hs := h s (List.mem_cons_self _ _)
    have hp := (ParseUint_ok_iff s (decimalValue s)).mpr ⟨hs.1, rfl, hs.2⟩
    simp only [parseValues, hp]
    rw [ih _ (fun t ht => h t (List.mem_cons_of_mem _ ht))]
    simp

theorem parseValues_fail (r : List String) (arch : Arch)
    (h : ∃ s ∈ r, ¬ (isDecimal s = true ∧ decimalValue s < two64)) :
    ∃ s e, s ∈ r ∧ ParseUint s = .error e ∧
      (parseValues r arch).2 = some (.parseNumber s e) := by
  induction r generalizing arch with
  | nil => simp at h
  | cons s r ih =>
    cases hp : ParseUint s with
    | error e =>
      exact ⟨s, e, List.mem_cons_self _ _, hp, by simp [parseValues, hp]⟩
    | ok n =>
      have hv := (ParseUint_ok_iff s n).mp hp
      obtain ⟨t, ht, hbad⟩ := h
      rcases List.mem_cons.mp ht with rfl | ht'
      · exact absurd ⟨hv.1, hv.2.1 ▸ hv.2.2⟩ hbad
      · obtain ⟨u, e, hu, hue, hres⟩ := ih { arch with Numbers := arch.Numbers ++ [toInt n] }
          ⟨t, ht', hbad⟩
        exact ⟨u, e, List.mem_cons_of_mem _ hu, hue, by simp [parseValues, hp, hres]⟩

theorem buildRequest_fst (tbl : List (String × Int)) (syscalls : List Syscall)
    (vals : List String) (defines : List (String × String)) :
    (buildRequest tbl syscalls (vals, defines)).1 =
      vals ++ syscalls.map fun sc => "__NR_" ++ sc.CallName := by
  induction syscalls generalizing vals defines with
  | nil => simp [buildRequest]
  | cons sc rest ih => simp [buildRequest, ih]

theorem lookup_mapAssign (m : List (String × String)) (k v k' : String) :
    (mapAssign m k v).lookup k' = if k' = k then some v else m.lookup k' := by
  induction m with
  | nil =>
    by_cases h : k' = k
    · simp [mapAssign, List.lookup, h]
    · have hb : (k' == k) = false := by simpa using h
      simp [mapAssign, List.lookup, h, hb]
  | cons e m ih =>
    obtain ⟨k0, v0⟩ := e
    by_cases h0 : k0 = k
    · subst h0
      by_cases h : k' = k0
      · simp [mapAssign, List.lookup, h]
      · have hb : (k' == k0) = false := by simpa using h
        simp [mapAssign, List.lookup, h, hb]
    · by_cases h : k' = k
      · subst h
        have hb : (k' == k0) = false := by simpa using fun e : k' = k0 => h0 e.symm
        simp [mapAssign, List.lookup, h0, hb, ih]
      · by_cases h1 : k' = k0
        · simp [mapAssign, List.lookup, h0, h, h1]
        · have hb : (k' == k0) = false := by simpa using h1
          simp [mapAssign, List.lookup, h0, h, hb, ih]

theorem symbol_injective (a b : String) (h : "__NR_" ++ a = "__NR_" ++ b) : a = b := by
  have := congrArg String.data h
  simp only [String.data_append] at this
  exact String.ext (List.append_cancel_left this)

/-- The default the code picks for a kernel-facing name: the decimal text of the
identifier when the lookup in the table is not zero, and `-1` otherwise. -/
theorem buildRequest_lookup (tbl : List (String × Int)) (syscalls : List Syscall)
    (vals : List String) (defines : List (String × String)) (cn : String) :
    (buildRequest tbl syscalls (vals, defines)).2.lookup ("__NR_" ++ cn) =
      if cn ∈ syscalls.map (fun sc => sc.CallName) then
        some (if mapIndex tbl cn ≠ 0 then Itoa (mapIndex tbl cn) else "-1")
      else defines.lookup ("__NR_" ++ cn) := by
  induction syscalls generalizing vals defines with
  | nil => simp [buildRequest]
  | cons sc rest ih =>
    simp only [buildRequest, List.map_cons, List.mem_cons]
    rw [ih]
    by_cases hr : cn ∈ rest.map (fun sc => sc.CallName)
    · simp [hr]
    · simp only [hr, if_false, or_false]
      by_cases hc : cn = sc.CallName
      · subst hc
        by_cases hz : mapIndex tbl sc.CallName = 0
        · simp [hz, lookup_mapAssign]
        · simp [hz, lookup_mapAssign]
      · have hne : ¬ ("__NR_" ++ cn = "__NR_" ++ sc.CallName) :=
          fun e => hc (symbol_injective _ _ e)
        by_cases hz : mapIndex tbl sc.CallName = 0
        · simp [hz, hc, hne, lookup_mapAssign]
        · simp [hz, hc, hne, lookup_mapAssign]

theorem fetchSyscallsNumbers_ok (fetchValues : Probe) (tbl : List (String × Int)) (arch : Arch)
    (syscalls : List Syscall)
    (h : ∀ s ∈ probeResult fetchValues tbl arch syscalls,
      isDecimal s = true ∧ decimalValue s < two64) :
    (fetchSyscallsNumbers fetchValues tbl arch syscalls).failure = none ∧
    (fetchSyscallsNumbers fetchValues tbl arch syscalls).value =
      { arch with Numbers := arch.Numbers ++
          (probeResult fetchValues tbl arch syscalls).map fun s => toInt (decimalValue s) } := by
  unfold fetchSyscallsNumbers
  unfold probeResult at h
  simp only [parseValues_ok _ arch h, probeResult]
  exact ⟨trivial, trivial⟩

theorem fetchSyscallsNumbers_fail (fetchValues : Probe) (tbl : List (String × Int)) (arch : Arch)
    (syscalls : List Syscall)
    (h : ∃ s ∈ probeResult fetchValues tbl arch syscalls,
      ¬ (isDecimal s = true ∧ decimalValue s < two64)) :
    ∃ s e, s ∈ probeResult fetchValues tbl arch syscalls ∧ ParseUint s = .error e ∧
      (fetchSyscallsNumbers fetchValues tbl arch syscalls).failure = some (.parseNumber s e) := by
  unfold probeResult at h
  obtain ⟨s, e, hs, he, hf⟩ := parseValues_fail _ arch h
  exact ⟨s, e, hs, he, hf⟩

theorem toInt_small (n : Nat) (h : n < 9223372036854775808) : toInt n = (n : Int) := by
  unfold toInt two64
  have : n % 18446744073709551616 = n := Nat.mod_eq_of_lt (by omega)
  simp [this, h]

theorem syzkalls_key_iff (k : String) :
    k ∈ syzkalls.map Prod.fst ↔ mapIndex syzkalls k ≠ 0 := by
  simp only [syzkalls, mapIndex, List.map_cons, List.map_nil, List.mem_cons, List.lookup]
  by_cases h1 : k = "syz_open_dev"
  · subst h1; decide
  by_cases h2 : k = "syz_open_pts"
  · subst h2; decide
  by_cases h3 : k = "syz_fuse_mount"
  · subst h3; decide
  by_cases h4 : k = "syz_fuseblk_mount"
  · subst h4; decide
  have b1 : (k == "syz_open_dev") = false := by simpa using h1
  have b2 : (k == "syz_open_pts") = false := by simpa using h2
  have b3 : (k == "syz_fuse_mount") = false := by simpa using h3
  have b4 : (k == "syz_fuseblk_mount") = false := by simpa using h4
  simp [h1, h2, h3, h4, b1, b2, b3, b4]

theorem syzkalls_roundtrip (k : String) (hk : k ∈ syzkalls.map Prod.fst) :
    isDecimal (Itoa (mapIndex syzkalls k)) = true ∧
    decimalValue (Itoa (mapIndex syzkalls k)) < two64 ∧
    toInt (decimalValue (Itoa (mapIndex syzkalls k))) = mapIndex syzkalls k := by
  simp only [syzkalls, List.map_cons, List.map_nil, List.mem_cons, List.mem_singleton,
    List.not_mem_nil, or_false] at hk
  rcases hk with rfl | rfl | rfl | rfl <;> decide

/-! ## The loop of `generateSyscallsNumbers` -/

theorem parseValues_frame (r : List String) (arch : Arch) :
    (parseValues r arch).1.GOARCH = arch.GOARCH ∧ (parseValues r arch).1.CARCH = arch.CARCH ∧
    (parseValues r arch).1.KernelHeaderArch = arch.KernelHeaderArch ∧
    (parseValues r arch).1.KernelInclude = arch.KernelInclude := by
  induction r generalizing arch with
  | nil => simp [parseValues]
  | cons s r ih =>
    cases hp : ParseUint s with
    | error e => simp [parseValues, hp]
    | ok n =>
      simp only [parseValues, hp]
      exact ih _

theorem fetchSyscallsNumbers_GOARCH (fetchValues : Probe) (tbl : List (String × Int))
    (arch : Arch) (syscalls : List Syscall) :
    (fetchSyscallsNumbers fetchValues tbl arch syscalls).value.GOARCH = arch.GOARCH :=
  (parseValues_frame _ arch).1

theorem writtenFiles_append (t u : List Event) :
    writtenFiles (t ++ u) = writtenFiles t ++ writtenFiles u := by
  induction t with
  | nil => rfl
  | cons e t ih => cases e <;> simp [writtenFiles, ih]

theorem fetchSyscallsNumbers_writes_nothing (fetchValues : Probe) (tbl : List (String × Int))
    (arch : Arch) (syscalls : List Syscall) :
    writtenFiles (fetchSyscallsNumbers fetchValues tbl arch syscalls).trace = [] := rfl

theorem resolveArchs_failure_kind (fetchValues : Probe) (tbl : List (String × Int))
    (syscalls : List Syscall) (reg : List Arch) (f : Failure)
    (h : (resolveArchs fetchValues tbl syscalls reg).failure = some f) :
    ∃ s e, f = .parseNumber s e := by
  induction reg with
  | nil => simp [resolveArchs] at h
  | cons a rest ih =>
    by_cases hbad : ∃ s ∈ probeResult fetchValues tbl a syscalls,
        ¬ (isDecimal s = true ∧ decimalValue s < two64)
    · obtain ⟨s, e, _, _, hf⟩ := fetchSyscallsNumbers_fail fetchValues tbl a syscalls hbad
      simp only [resolveArchs, hf] at h
      exact ⟨s, e, (Option.some.inj h).symm⟩
    · have hall : ∀ s ∈ probeResult fetchValues tbl a syscalls,
          isDecimal s = true ∧ decimalValue s < two64 := by
        intro s hs
        by_contra hc
        exact hbad ⟨s, hs, hc⟩
      have hf := (fetchSyscallsNumbers_ok fetchValues tbl a syscalls hall).1
      simp only [resolveArchs, hf] at h
      exact ih h

/-- When resolving `A` fails, the loop over `pre ++ A :: post` fails, and the
files written are tables of architectures of `pre`. -/
theorem resolveArchs_stops (fetchValues : Probe) (tbl : List (String × Int))
    (syscalls : List Syscall) (pre : List Arch) (A : Arch) (post : List Arch)
    (hA : (fetchSyscallsNumbers fetchValues tbl A syscalls).failure ≠ none) :
    (resolveArchs fetchValues tbl syscalls (pre ++ A :: post)).failure ≠ none ∧
    ∀ f ∈ writtenFiles (resolveArchs fetchValues tbl syscalls (pre ++ A :: post)).trace,
      f ∈ pre.map fun a => "sys/sys_" ++ a.GOARCH ++ ".go" := by
  induction pre with
  | nil =>
    cases hf : (fetchSyscallsNumbers fetchValues tbl A syscalls).failure with
    | none => exact absurd hf hA
    | some f =>
      simp only [List.nil_append, resolveArchs, hf]
      refine ⟨by simp, ?_⟩
      intro g hg
      rw [fetchSyscallsNumbers_writes_nothing] at hg
      cases hg
  | cons B pre ih =>
    cases hf : (fetchSyscallsNumbers fetchValues tbl B syscalls).failure with
    | some f =>
      simp only [List.cons_append, resolveArchs, hf]
      refine ⟨by simp, ?_⟩
      intro g hg
      rw [fetchSyscallsNumbers_writes_nothing] at hg
      cases hg
    | none =>
      simp only [List.cons_append, resolveArchs, hf]
      refine ⟨ih.1, ?_⟩
      intro g hg
      rw [writtenFiles_append, fetchSyscallsNumbers_writes_nothing] at hg
      simp only [List.nil_append, generateSyscallsNumbersArch, writtenFiles,
        List.mem_cons] at hg
      rcases hg with hg | hg
      · rw [fetchSyscallsNumbers_GOARCH] at hg
        simp [hg]
      · exact List.mem_cons_of_mem _ (ih.2 g hg)

theorem archPath_injective (a b : String)
    (h : "sys/sys_" ++ a ++ ".go" = "sys/sys_" ++ b ++ ".go") : a = b := by
  have := congrArg String.data h
  simp only [String.data_append] at this
  exact String.ext (List.append_cancel_left (List.append_cancel_right this))

theorem archPath_ne_header (a : String) : "sys/sys_" ++ a ++ ".go" ≠ "executor/syscalls.h" := by
  intro h
  have := congrArg String.data h
  simp only [String.data_append] at this
  have h0 := congrArg List.head? this
  simp only [List.cons_append, List.head?_cons, Option.some.injEq] at h0
  revert h0
  decide

/-! ## Sorting the synthetic calls -/

theorem stringLess_iff (a b : List Char) : stringLess a b = true ↔ a < b := by
  induction a generalizing b with
  | nil =>
    cases b with
    | nil => simp [stringLess]
    | cons y ys => simpa [stringLess] using List.Lex.nil
  | cons x xs ih =>
    cases b with
    | nil => simp [stringLess]
    | cons y ys =>
      simp only [stringLess]
      rcases lt_trichotomy x y with h | h | h
      · simp only [h, if_true, true_iff]
        exact List.Lex.rel h
      · subst h
        simp only [lt_irrefl, if_false, ih]
        exact (List.Lex.cons_iff (r := (· < ·))).symm
      · have h' : ¬ x < y := not_lt.mpr h.le
        simp only [h', h, if_false, if_true, Bool.false_eq_true, false_iff]
        intro hl
        cases hl with
        | cons hl => exact lt_irrefl _ h
        | rel hl => exact h' hl

/-- The method `Less` is the order `<` of the names. -/
theorem Less_iff (a b : SyscallData) : SyscallArray.Less a b = true ↔ a.Name < b.Name := by
  unfold SyscallArray.Less
  rw [stringLess_iff]
  exact String.lt_iff_toList_lt.symm

theorem sortInsert_perm (x : SyscallData) (l : List SyscallData) :
    (sortInsert x l).Perm (x :: l) := by
  induction l with
  | nil => exact List.Perm.refl _
  | cons y ys ih =>
    unfold sortInsert
    by_cases h : SyscallArray.Less x y = true
    · rw [if_pos h]
    · rw [if_neg h]
      exact (List.Perm.cons y ih).trans (List.Perm.swap x y ys)

theorem sortInsert_sorted (x : SyscallData) (l : List SyscallData)
    (hl : l.Pairwise fun a b => a.Name ≤ b.Name) :
    (sortInsert x l).Pairwise fun a b => a.Name ≤ b.Name := by
  induction l with
  | nil => simp [sortInsert]
  | cons y ys ih =>
    unfold sortInsert
    obtain ⟨hy, hys⟩ := List.pairwise_cons.mp hl
    by_cases h : SyscallArray.Less x y = true
    · rw [if_pos h]
      have hxy : x.Name < y.Name := (Less_iff x y).mp h
      refine List.pairwise_cons.mpr ⟨?_, hl⟩
      intro z hz
      rcases List.mem_cons.mp hz with rfl | hz
      · exact hxy.le
      · exact hxy.le.trans (hy z hz)
    · rw [if_neg h]
      have hyx : y.Name ≤ x.Name := not_lt.mp (fun hlt => h ((Less_iff x y).mpr hlt))
      refine List.pairwise_cons.mpr ⟨?_, ih hys⟩
      intro z hz
      rcases List.mem_cons.mp ((sortInsert_perm x ys).subset hz) with rfl | hz
      · exact hyx
      · exact hy z hz

theorem sort_foldl (l acc : List SyscallData)
    (hacc : acc.Pairwise fun a b => a.Name ≤ b.Name) :
    (l.foldl (fun sorted x => sortInsert x sorted) acc).Perm (acc ++ l) ∧
    (l.foldl (fun sorted x => sortInsert x sorted) acc).Pairwise fun a b => a.Name ≤ b.Name := by
  induction l generalizing acc with
  | nil => simpa using hacc
  | cons x l ih =>
    simp only [List.foldl_cons]
    obtain ⟨hp, hs⟩ := ih (sortInsert x acc) (sortInsert_sorted x acc hacc)
    refine ⟨hp.trans ?_, hs⟩
    have h1 : (sortInsert x acc ++ l).Perm (x :: acc ++ l) :=
      List.Perm.append_right l (sortInsert_perm x acc)
    exact h1.trans (by simpa using (@List.perm_middle _ x acc l).symm)

theorem sortSyscallArray_perm (a : List SyscallData) : (sortSyscallArray a).Perm a := by
  simpa [sortSyscallArray] using (sort_foldl a [] List.Pairwise.nil).1

theorem sortSyscallArray_sorted (a : List SyscallData) :
    (sortSyscallArray a).Pairwise fun x y => x.Name ≤ y.Name :=
  (sort_foldl a [] List.Pairwise.nil).2

/-- With pairwise distinct names the sorted array is strictly increasing. -/
theorem sortSyscallArray_strict (a : List SyscallData) (hnd : (a.map fun c => c.Name).Nodup) :
    (sortSyscallArray a).Pairwise fun x y => x.Name < y.Name := by
  have hnd' : ((sortSyscallArray a).map fun c => c.Name).Nodup :=
    ((sortSyscallArray_perm a).map _).nodup_iff.mpr hnd
  have hne : (sortSyscallArray a).Pairwise fun x y => x.Name ≠ y.Name :=
    (List.pairwise_map (f := fun c : SyscallData => c.Name) (R := fun x y => x ≠ y)).mp hnd'
  exact ((sortSyscallArray_sorted a).and hne).imp fun h => lt_of_le_of_ne h.1 h.2

/-- Two strictly increasing arrays with the same elements are equal. -/
theorem strict_sorted_unique (l₁ l₂ : List SyscallData) (hp : l₁.Perm l₂)
    (h₁ : l₁.Pairwise fun x y => x.Name < y.Name)
    (h₂ : l₂.Pairwise fun x y => x.Name < y.Name) : l₁ = l₂ := by
  haveI : IsAntisymm SyscallData (fun x y => x.Name < y.Name) :=
    ⟨fun _ _ h1 h2 => absurd h2 (lt_asymm h1)⟩
  exact List.eq_of_perm_of_sorted hp h₁ h₂

theorem buildFakeCalls_eq (tbl : List (String × Int)) (acc : List SyscallData) :
    buildFakeCalls tbl acc = acc ++ tbl.map fun e => ⟨e.1, e.2⟩ := by
  induction tbl generalizing acc with
  | nil => simp [buildFakeCalls]
  | cons e tbl ih =>
    obtain ⟨name, nr⟩ := e
    simp [buildFakeCalls, ih]

theorem fakeCalls_names (tbl : List (String × Int)) :
    (buildFakeCalls tbl []).map (fun c => c.Name) = tbl.map Prod.fst := by
  simp [buildFakeCalls_eq]

/-- The sorted `FakeCalls` do not depend on the order in which the map is
enumerated. -/
theorem fakeCalls_order_independent (t₁ t₂ : List (String × Int)) (hp : t₁.Perm t₂)
    (hk : (t₁.map Prod.fst).Nodup) :
    sortSyscallArray (buildFakeCalls t₁ []) = sortSyscallArray (buildFakeCalls t₂ []) := by
  have hk₂ : (t₂.map Prod.fst).Nodup := (hp.map _).nodup_iff.mp hk
  have hperm : (buildFakeCalls t₁ []).Perm (buildFakeCalls t₂ []) := by
    simpa [buildFakeCalls_eq] using hp.map fun e => (⟨e.1, e.2⟩ : SyscallData)
  exact strict_sorted_unique _ _
    (((sortSyscallArray_perm _).trans hperm).trans (sortSyscallArray_perm _).symm)
    (sortSyscallArray_strict _ (by rw [fakeCalls_names]; exact hk))
    (sortSyscallArray_strict _ (by rw [fakeCalls_names]; exact hk₂))

/-! ## The render data of `generateExecutorSyscalls` -/

theorem buildCalls_eq (arch : Arch) (syscalls : List Syscall) (i : Nat)
    (calls : List SyscallData) (h : i + syscalls.length ≤ arch.Numbers.length) :
    buildCalls arch syscalls i calls =
      .ok (calls ++ List.zipWith (fun c nr => ⟨c.Name, nr⟩) syscalls (arch.Numbers.drop i)) := by
  induction syscalls generalizing i calls with
  | nil => simp [buildCalls]
  | cons c rest ih =>
    simp only [List.length_cons] at h
    have hi : i < arch.Numbers.length := by omega
    simp only [buildCalls, List.getElem?_eq_getElem hi]
    rw [ih (i + 1) _ (by omega), List.drop_eq_getElem_cons hi]
    simp only [List.zipWith_cons_cons, List.append_assoc, List.singleton_append]

theorem buildArchs_eq (syscalls : List Syscall) (reg : List Arch) (acc : List ArchData)
    (h : ∀ a ∈ reg, syscalls.length ≤ a.Numbers.length) :
    buildArchs syscalls reg acc =
      .ok (acc ++ reg.map fun a =>
        ⟨a.CARCH, List.zipWith (fun c nr => ⟨c.Name, nr⟩) syscalls a.Numbers⟩) := by
  induction reg generalizing acc with
  | nil => simp [buildArchs]
  | cons a rest ih =>
    have ha := h a (List.mem_cons_self _ _)
    simp only [buildArchs, buildCalls_eq a syscalls 0 [] (by omega)]
    rw [ih _ (fun b hb => h b (List.mem_cons_of_mem _ hb))]
    simp

theorem executorData_eq (reg : List Arch) (tbl : List (String × Int)) (syscalls : List Syscall)
    (h : ∀ a ∈ reg, syscalls.length ≤ a.Numbers.length) :
    executorData reg tbl syscalls =
      .ok ⟨reg.map fun a =>
          ⟨a.CARCH, List.zipWith (fun c nr => ⟨c.Name, nr⟩) syscalls a.Numbers⟩,
        sortSyscallArray (buildFakeCalls tbl [])⟩ := by
  simp [executorData, buildArchs_eq syscalls reg [] h]

/-! ## Independence of the enumeration order of the map -/

theorem perm_lookup (t₁ t₂ : List (String × Int)) (hp : t₁.Perm t₂)
    (hk : (t₁.map Prod.fst).Nodup) (k : String) : t₁.lookup k = t₂.lookup k := by
  induction hp with
  | nil => rfl
  | cons e _ ih =>
    obtain ⟨k0, v0⟩ := e
    simp only [List.map_cons, List.nodup_cons] at hk
    simp only [List.lookup, ih hk.2]
  | swap e₁ e₂ l =>
    obtain ⟨k1, v1⟩ := e₁
    obtain ⟨k2, v2⟩ := e₂
    simp only [List.map_cons, List.nodup_cons, List.mem_cons, not_or] at hk
    have hne : k2 ≠ k1 := hk.1.1
    simp only [List.lookup]
    by_cases h1 : k = k1
    · have hb1 : (k == k1) = true := by simpa using h1
      have hb2 : (k == k2) = false := by simpa using fun e : k = k2 => hne (e.symm.trans h1)
      simp [hb1, hb2]
    · have hb1 : (k == k1) = false := by simpa using h1
      simp [hb1]
  | trans h₁ _ ih₁ ih₂ =>
    exact (ih₁ hk).trans (ih₂ ((h₁.map _).nodup_iff.mp hk))

theorem buildRequest_congr (t₁ t₂ : List (String × Int))
    (h : ∀ k, mapIndex t₁ k = mapIndex t₂ k) (syscalls : List Syscall)
    (acc : List String × List (String × String)) :
    buildRequest t₁ syscalls acc = buildRequest t₂ syscalls acc := by
  induction syscalls generalizing acc with
  | nil => rfl
  | cons sc rest ih =>
    obtain ⟨vals, defines⟩ := acc
    simp only [buildRequest, h, ih]

theorem resolveArchs_congr (fetchValues : Probe) (t₁ t₂ : List (String × Int))
    (h : ∀ k, mapIndex t₁ k = mapIndex t₂ k) (syscalls : List Syscall) (reg : List Arch) :
    resolveArchs fetchValues t₁ syscalls reg = resolveArchs fetchValues t₂ syscalls reg := by
  induction reg with
  | nil => rfl
  | cons a rest ih =>
    simp only [resolveArchs, fetchSyscallsNumbers, buildRequest_congr t₁ t₂ h, ih]

theorem generateExecutorSyscalls_congr (reg : List Arch) (t₁ t₂ : List (String × Int))
    (hp : t₁.Perm t₂) (hk : (t₁.map Prod.fst).Nodup) (syscalls : List Syscall) :
    generateExecutorSyscalls reg t₁ syscalls = generateExecutorSyscalls reg t₂ syscalls := by
  simp only [generateExecutorSyscalls, executorData, fakeCalls_order_independent t₁ t₂ hp hk]

/-! ## strconv: the text of a number denotes that number -/

theorem digitChar_digit (d : Nat) (h : d < 10) :
    (Nat.digitChar d).isDigit = true ∧ (Nat.digitChar d).toNat - 48 = d := by
  interval_cases d <;> decide

theorem toDigitsCore_append (fuel n : Nat) (ds : List Char) :
    Nat.toDigitsCore 10 fuel n ds = Nat.toDigitsCore 10 fuel n [] ++ ds := by
  induction fuel generalizing n ds with
  | zero => simp [Nat.toDigitsCore]
  | succ fuel ih =>
    simp only [Nat.toDigitsCore]
    by_cases h : n / 10 = 0
    · simp [h]
    · simp only [h, if_false]
      rw [ih (n / 10) (Nat.digitChar (n % 10) :: ds), ih (n / 10) [Nat.digitChar (n % 10)]]
      simp

theorem toDigitsCore_value (fuel n : Nat) (h : n < fuel) :
    (Nat.toDigitsCore 10 fuel n []).foldl (fun n c => 10 * n + (c.toNat - 48)) 0 = n ∧
    (Nat.toDigitsCore 10 fuel n []).all Char.isDigit = true ∧
    Nat.toDigitsCore 10 fuel n [] ≠ [] := by
  induction fuel generalizing n with
  | zero => omega
  | succ fuel ih =>
    have hd := digitChar_digit (n % 10) (Nat.mod_lt _ (by decide))
    simp only [Nat.toDigitsCore]
    by_cases h0 : n / 10 = 0
    · simp only [h0, if_true, List.foldl_cons, List.foldl_nil, List.all_cons, List.all_nil,
        hd.1, hd.2, Bool.and_self, ne_eq, not_false_eq_true, and_true]
      simp
      omega
    · simp only [h0, if_false]
      rw [toDigitsCore_append]
      obtain ⟨h1, h2, h3⟩ := ih (n / 10) (by omega)
      refine ⟨?_, ?_, ?_⟩
      · rw [List.foldl_append, h1]
        simp only [List.foldl_cons, List.foldl_nil, hd.2]
        omega
      · simp [List.all_append, h2, hd.1]
      · simp

/-- The decimal text of a natural number is a decimal text of that value. -/
theorem repr_roundtrip (n : Nat) :
    decimalValue (Nat.repr n) = n ∧ isDecimal (Nat.repr n) = true := by
  obtain ⟨h1, h2, h3⟩ := toDigitsCore_value (n + 1) n (by omega)
  refine ⟨h1, ?_⟩
  show (!(Nat.toDigits 10 n).isEmpty && (Nat.toDigits 10 n).all Char.isDigit) = true
  unfold Nat.toDigits
  rw [h2]
  cases hc : Nat.toDigitsCore 10 (n + 1) n [] with
  | nil => exact absurd hc h3
  | cons a l => rfl

theorem decimalInt_of_digits (s : String) (h : isDecimal s = true) :
    decimalInt s = (decimalValue s : Int) := by
  unfold decimalInt
  split
  · rename_i cs hcs
    unfold isDecimal at h
    rw [hcs] at h
    simp only [List.all_cons, Bool.and_eq_true] at h
    exact absurd h.2.1 (by decide)
  · rfl

/-- Reading back the text `Itoa` prints gives the number printed. -/
theorem decimalInt_Itoa (i : Int) : decimalInt (Itoa i) = i := by
  cases i with
  | ofNat n =>
    obtain ⟨h1, h2⟩ := repr_roundtrip n
    show decimalInt (Nat.repr n) = _
    rw [decimalInt_of_digits _ h2, h1]
    rfl
  | negSucc n =>
    obtain ⟨h1, h2⟩ := repr_roundtrip (n + 1)
    have hd : ("-" ++ Nat.repr (n + 1)).data = '-' :: (Nat.repr (n + 1)).data := by
      simp [String.data_append]
    show decimalInt ("-" ++ Nat.repr (n + 1)) = _
    unfold decimalInt
    rw [hd]
    show - (decimalValue (Nat.repr (n + 1)) : Int) = _
    rw [h1]
    rfl

/-! ## The guard line and its expression -/

theorem render_foldl_data (ms : List String) (e : CppExpr) :
    (CppExpr.render (ms.foldl (fun e x => CppExpr.or e (CppExpr.defined x)) e)).data =
      (CppExpr.render e).data ++
        (ms.map fun x => " || ".data ++ "defined(".data ++ x.data ++ ")".data).flatten := by
  induction ms generalizing e with
  | nil => simp
  | cons m ms ih =>
    simp only [List.foldl_cons, List.map_cons, List.flatten_cons]
    rw [ih]
    simp only [CppExpr.render, String.data_append, List.append_assoc]

theorem guard_items_data (m : String) (ms : List String) :
    ((m :: ms).map fun c => "defined(".data ++ c.data ++ ")".data ++ " || ".data).flatten =
      "defined(".data ++ m.data ++ ")".data ++
        (ms.map fun x => " || ".data ++ "defined(".data ++ x.data ++ ")".data).flatten ++
        " || ".data := by
  induction ms generalizing m with
  | nil => simp
  | cons m' ms ih =>
    rw [List.map_cons, List.flatten_cons, ih m']
    simp only [List.map_cons, List.flatten_cons, List.append_assoc]

/-- The guard line is `#if` followed by the text of the guard expression. -/
theorem guardLine_render (carch : List String) :
    guardLine carch = "#if " ++ (guardExpr carch).render := by
  cases carch with
  | nil => decide
  | cons m ms =>
    apply String.ext
    have h1 : (") || " : String).data = ")".data ++ " || ".data := by decide
    have hmap : (List.map (String.data ∘ fun cdef => "defined(" ++ cdef ++ ") || ") (m :: ms)) =
        (m :: ms).map fun c => "defined(".data ++ c.data ++ ")".data ++ " || ".data := by
      apply List.map_congr_left
      intro c _
      simp only [Function.comp, String.data_append, h1, List.append_assoc]
      rfl
    simp only [guardLine, guardExpr, CppExpr.render, String.data_append, String.data_join,
      List.map_map, render_foldl_data]
    rw [hmap, guard_items_data]
    simp only [List.append_assoc]

theorem eval_foldl (isDefined : String → Bool) (ms : List String) (e : CppExpr) :
    CppExpr.eval isDefined (ms.foldl (fun e x => CppExpr.or e (CppExpr.defined x)) e) =
      (CppExpr.eval isDefined e || ms.any isDefined) := by
  induction ms generalizing e with
  | nil => simp
  | cons m ms ih =>
    simp only [List.foldl_cons, ih, CppExpr.eval, List.any_cons, Bool.or_assoc]

/-- The guard expression holds exactly when one of the macros is defined. -/
theorem guardExpr_eval (isDefined : String → Bool) (carch : List String) :
    (guardExpr carch).eval isDefined = carch.any isDefined := by
  cases carch with
  | nil => rfl
  | cons m ms =>
    simp only [guardExpr, CppExpr.eval, eval_foldl, List.any_cons, Bool.or_false]

/-! ## The keys of the defaults map -/

theorem mapAssign_keys (m : List (String × String)) (k v k' : String) :
    k' ∈ (mapAssign m k v).map Prod.fst ↔ k' = k ∨ k' ∈ m.map Prod.fst := by
  induction m with
  | nil => simp [mapAssign]
  | cons e m ih =>
    obtain ⟨k0, v0⟩ := e
    by_cases h0 : k0 = k
    · subst h0
      simp [mapAssign]
    · simp only [mapAssign, h0, if_false, List.map_cons, List.mem_cons, ih]
      constructor
      · rintro (h | h | h)
        · exact Or.inr (Or.inl h)
        · exact Or.inl h
        · exact Or.inr (Or.inr h)
      · rintro (h | h | h)
        · exact Or.inr (Or.inl h)
        · exact Or.inl h
        · exact Or.inr (Or.inr h)

theorem mapAssign_nodup (m : List (String × String)) (k v : String)
    (h : (m.map Prod.fst).Nodup) : ((mapAssign m k v).map Prod.fst).Nodup := by
  induction m with
  | nil => simp [mapAssign]
  | cons e m ih =>
    obtain ⟨k0, v0⟩ := e
    simp only [List.map_cons, List.nodup_cons] at h
    by_cases h0 : k0 = k
    · subst h0
      simpa [mapAssign] using h
    · simp only [mapAssign, h0, if_false, List.map_cons, List.nodup_cons]
      refine ⟨?_, ih h.2⟩
      intro hmem
      rcases (mapAssign_keys m k v k0).mp hmem with hk | hk
      · exact h0 hk
      · exact h.1 hk

theorem buildRequest_keys (tbl : List (String × Int)) (syscalls : List Syscall)
    (vals : List String) (defines : List (String × String)) (k : String) :
    k ∈ (buildRequest tbl syscalls (vals, defines)).2.map Prod.fst ↔
      k ∈ defines.map Prod.fst ∨ k ∈ syscalls.map fun sc => "__NR_" ++ sc.CallName := by
  induction syscalls generalizing vals defines with
  | nil => simp [buildRequest]
  | cons sc rest ih =>
    simp only [buildRequest, List.map_cons, List.mem_cons]
    rw [ih]
    by_cases hz : mapIndex tbl sc.CallName ≠ 0
    · rw [if_pos hz]
      simp only [mapAssign_keys]
      constructor
      · rintro ((h | h | h) | h)
        · exact Or.inr (Or.inl h)
        · exact Or.inr (Or.inl h)
        · exact Or.inl h
        · exact Or.inr (Or.inr h)
      · rintro (h | h | h)
        · exact Or.inl (Or.inr (Or.inr h))
        · exact Or.inl (Or.inl h)
        · exact Or.inr h
    · rw [if_neg hz]
      simp only [mapAssign_keys]
      constructor
      · rintro ((h | h) | h)
        · exact Or.inr (Or.inl h)
        · exact Or.inl h
        · exact Or.inr (Or.inr h)
      · rintro (h | h | h)
        · exact Or.inl (Or.inr h)
        · exact Or.inl (Or.inl h)
        · exact Or.inr h

theorem buildRequest_nodup (tbl : List (String × Int)) (syscalls : List Syscall)
    (vals : List String) (defines : List (String × String))
    (h : (defines.map Prod.fst).Nodup) :
    ((buildRequest tbl syscalls (vals, defines)).2.map Prod.fst).Nodup := by
  induction syscalls generalizing vals defines with
  | nil => simpa [buildRequest] using h
  | cons sc rest ih =>
    simp only [buildRequest]
    apply ih
    by_cases hz : mapIndex tbl sc.CallName ≠ 0
    · rw [if_pos hz]
      exact mapAssign_nodup _ _ _ (mapAssign_nodup _ _ _ h)
    · rw [if_neg hz]
      exact mapAssign_nodup _ _ _ h

theorem probeResult_congr (fetchValues : Probe) (tbl : List (String × Int)) (A B : Arch)
    (syscalls : List Syscall) (h1 : B.KernelHeaderArch = A.KernelHeaderArch)
    (h2 : B.KernelInclude = A.KernelInclude) :
    probeResult fetchValues tbl B syscalls = probeResult fetchValues tbl A syscalls := by
  simp only [probeResult, h1, h2]

theorem toInt_large (n : Nat) (h1 : 9223372036854775808 ≤ n) (h2 : n < two64) :
    toInt n = (n : Int) - 18446744073709551616 := by
  unfold toInt
  simp only [two64] at h2 ⊢
  have hm : n % 18446744073709551616 = n := Nat.mod_eq_of_lt h2
  rw [hm, if_neg (by omega)]
  rfl

/-! ## A run in which every resolution succeeds -/

theorem resolveArchs_ok (fetchValues : Probe) (tbl : List (String × Int))
    (syscalls : List Syscall) (reg : List Arch)
    (hval : ∀ A ∈ reg, ∀ s ∈ probeResult fetchValues tbl A syscalls,
      isDecimal s = true ∧ decimalValue s < two64) :
    resolveArchs fetchValues tbl syscalls reg =
      ⟨reg.map fun A => (fetchSyscallsNumbers fetchValues tbl A syscalls).value,
        (reg.map fun A =>
          [Event.fetchValues A.KernelHeaderArch
              (syscalls.map fun sc => "__NR_" ++ sc.CallName) [A.KernelInclude]
              (buildRequest tbl syscalls ([], [])).2,
            Event.writeSource ("sys/sys_" ++ A.GOARCH ++ ".go")
              (archTempl (fetchSyscallsNumbers fetchValues tbl A syscalls).value)]).flatten,
        none⟩ := by
  induction reg with
  | nil => rfl
  | cons A rest ih =>
    have hf := (fetchSyscallsNumbers_ok fetchValues tbl A syscalls
      (hval A (List.mem_cons_self _ _))).1
    have hvals : (buildRequest tbl syscalls ([], [])).1
        = syscalls.map fun sc => "__NR_" ++ sc.CallName := by
      simpa using buildRequest_fst tbl syscalls [] []
    have htrace : (fetchSyscallsNumbers fetchValues tbl A syscalls).trace =
        [Event.fetchValues A.KernelHeaderArch
          (syscalls.map fun sc => "__NR_" ++ sc.CallName) [A.KernelInclude]
          (buildRequest tbl syscalls ([], [])).2] := by
      rw [← hvals]; rfl
    simp only [resolveArchs, hf, ih (fun B hB => hval B (List.mem_cons_of_mem _ hB)),
      htrace, generateSyscallsNumbersArch, fetchSyscallsNumbers_GOARCH, List.map_cons,
      List.flatten_cons, List.cons_append, List.nil_append]

theorem writtenFiles_resolved (reg : List Arch) (vals : Arch → List String)
    (defs : Arch → List (String × String)) (tx : Arch → String) :
    writtenFiles (reg.map fun A =>
      [Event.fetchValues A.KernelHeaderArch (vals A) [A.KernelInclude] (defs A),
        Event.writeSource ("sys/sys_" ++ A.GOARCH ++ ".go") (tx A)]).flatten
      = reg.map fun A => "sys/sys_" ++ A.GOARCH ++ ".go" := by
  induction reg with
  | nil => rfl
  | cons A rest ih =>
    simp only [List.map_cons, List.flatten_cons]
    rw [writtenFiles_append, ih]
    rfl

theorem buildCalls_short (arch : Arch) (syscalls : List Syscall) (i : Nat)
    (calls : List SyscallData) (hi : i ≤ arch.Numbers.length)
    (h : arch.Numbers.length < i + syscalls.length) :
    buildCalls arch syscalls i calls =
      .error (.indexOutOfRange arch.Numbers.length arch.Numbers.length) := by
  induction syscalls generalizing i calls with
  | nil => simp only [List.length_nil] at h; omega
  | cons c rest ih =>
    simp only [List.length_cons] at h
    by_cases hlt : i < arch.Numbers.length
    · simp only [buildCalls, List.getElem?_eq_getElem hlt]
      exact ih (i + 1) _ (by omega) (by omega)
    · have hieq : i = arch.Numbers.length := by omega
      have hnone : arch.Numbers[arch.Numbers.length]? = none :=
        List.getElem?_eq_none (by omega)
      simp only [buildCalls, hieq, hnone]

theorem buildArchs_short (syscalls : List Syscall) (reg : List Arch) (acc : List ArchData)
    (h : ∃ a ∈ reg, a.Numbers.length < syscalls.length) :
    ∃ n, buildArchs syscalls reg acc = .error (.indexOutOfRange n n) ∧ n < syscalls.length := by
  induction reg generalizing acc with
  | nil => simp at h
  | cons a rest ih =>
    by_cases ha : a.Numbers.length < syscalls.length
    · refine ⟨a.Numbers.length, ?_, ha⟩
      simp only [buildArchs, buildCalls_short a syscalls 0 [] (by omega) (by omega)]
    · obtain ⟨b, hb, hbl⟩ := h
      rcases List.mem_cons.mp hb with rfl | hb'
      · exact absurd hbl ha
      · obtain ⟨n, hn, hnl⟩ := ih (acc ++
          [⟨a.CARCH, List.zipWith (fun c nr => ⟨c.Name, nr⟩) syscalls a.Numbers⟩]) ⟨b, hb', hbl⟩
        refine ⟨n, ?_, hnl⟩
        simp only [buildArchs, buildCalls_eq a syscalls 0 [] (by omega)]
        simpa using hn

theorem fetchSyscallsNumbers_CARCH (fetchValues : Probe) (tbl : List (String × Int))
    (arch : Arch) (syscalls : List Syscall) :
    (fetchSyscallsNumbers fetchValues tbl arch syscalls).value.CARCH = arch.CARCH :=
  (parseValues_frame _ arch).2.1

/-- After resolutions that all succeed, what `generateSyscallsNumbers` does is
the loop followed by `generateExecutorSyscalls` on the resolved registry. -/
theorem generateSyscallsNumbers_ok (fetchValues : Probe) (tbl : List (String × Int))
    (reg : List Arch) (syscalls : List Syscall)
    (hval : ∀ A ∈ reg, ∀ s ∈ probeResult fetchValues tbl A syscalls,
      isDecimal s = true ∧ decimalValue s < two64) :
    generateSyscallsNumbers fetchValues tbl reg syscalls =
      ⟨reg.map fun A => (fetchSyscallsNumbers fetchValues tbl A syscalls).value,
        (reg.map fun A =>
          [Event.fetchValues A.KernelHeaderArch
              (syscalls.map fun sc => "__NR_" ++ sc.CallName) [A.KernelInclude]
              (buildRequest tbl syscalls ([], [])).2,
            Event.writeSource ("sys/sys_" ++ A.GOARCH ++ ".go")
              (archTempl (fetchSyscallsNumbers fetchValues tbl A syscalls).value)]).flatten
          ++ (generateExecutorSyscalls
                (reg.map fun A => (fetchSyscallsNumbers fetchValues tbl A syscalls).value)
                tbl syscalls).trace,
        (generateExecutorSyscalls
          (reg.map fun A => (fetchSyscallsNumbers fetchValues tbl A syscalls).value)
          tbl syscalls).failure⟩ := by
  simp only [generateSyscallsNumbers, resolveArchs_ok fetchValues tbl syscalls reg hval]

/-! ## Claims -/

/-- Claim C1. Starting from an empty `Numbers`, when the probe returns one
string per syscall and each is a decimal text of a value below `2^63`,
`fetchSyscallsNumbers` does not fail, leaves exactly `len(S)` numbers, the
`i`-th symbol probed is the one built from `S[i]`, and the `i`-th number is
the value of the `i`-th returned string. -/
theorem fetchSyscallsNumbers_one_number_per_syscall (fetchValues : Probe)
    (tbl : List (String × Int)) (A : Arch) (S : List Syscall)
    (hA : A.Numbers = [])
    (hlen : (probeResult fetchValues tbl A S).length = S.length)
    (hval : ∀ s ∈ probeResult fetchValues tbl A S,
      isDecimal s = true ∧ decimalValue s < 2 ^ 63) :
    (fetchSyscallsNumbers fetchValues tbl A S).failure = none ∧
    (fetchSyscallsNumbers fetchValues tbl A S).value.Numbers.length = S.length ∧
    (buildRequest tbl S ([], [])).1 = S.map (fun sc => "__NR_" ++ sc.CallName) ∧
    ∀ i, i < S.length → ∃ s, (probeResult fetchValues tbl A S)[i]? = some s ∧
      (fetchSyscallsNumbers fetchValues tbl A S).value.Numbers[i]? =
        some (decimalValue s : Int) := by
  have hval' : ∀ s ∈ probeResult fetchValues tbl A S,
      isDecimal s = true ∧ decimalValue s < two64 := by
    intro s hs
    have := hval s hs
    refine ⟨this.1, ?_⟩
    have h2 := this.2
    simp only [two64]
    omega
  obtain ⟨hf, hv⟩ := fetchSyscallsNumbers_ok fetchValues tbl A S hval'
  refine ⟨hf, ?_, ?_, ?_⟩
  · rw [hv]; simp [hA, hlen]
  · simpa using buildRequest_fst tbl S [] []
  · intro i hi
    have hi' : i < (probeResult fetchValues tbl A S).length := by rw [hlen]; exact hi
    refine ⟨(probeResult fetchValues tbl A S)[i], List.getElem?_eq_getElem hi', ?_⟩
    rw [hv]
    simp only [hA, List.nil_append, List.getElem?_map, List.getElem?_eq_getElem hi',
      Option.map_some']
    have := (hval _ (List.getElem_mem hi')).2
    rw [toInt_small _ (by omega)]

theorem fetchSyscallsNumbers_one_number_per_syscall_witness :
    (fetchSyscallsNumbers zeroProbe syzkalls amd64 [⟨"read", "read"⟩]).failure = none ∧
    (fetchSyscallsNumbers zeroProbe syzkalls amd64 [⟨"read", "read"⟩]).value.Numbers.length
      = [(⟨"read", "read"⟩ : Syscall)].length ∧
    (buildRequest syzkalls [⟨"read", "read"⟩] ([], [])).1
      = [(⟨"read", "read"⟩ : Syscall)].map (fun sc => "__NR_" ++ sc.CallName) ∧
    ∀ i, i < [(⟨"read", "read"⟩ : Syscall)].length →
      ∃ s, (probeResult zeroProbe syzkalls amd64 [⟨"read", "read"⟩])[i]? = some s ∧
        (fetchSyscallsNumbers zeroProbe syzkalls amd64 [⟨"read", "read"⟩]).value.Numbers[i]? =
          some (decimalValue s : Int) :=
  fetchSyscallsNumbers_one_number_per_syscall zeroProbe syzkalls amd64 [⟨"read", "read"⟩]
    rfl rfl (by decide)

/-- Claim C2, counterexample. The syscall `syz_open_dev$sg` has the
kernel-facing name `syz_open_dev`: its canonical name is not a key of
`syzkalls`, yet the default supplied for its symbol is `1000001`, not `-1`;
so the default is not decided by the canonical name. -/
theorem default_by_Name_counterexample :
    ("syz_open_dev$sg" ∉ syzkalls.map Prod.fst ∧
      suppliedDefault syzkalls [⟨"syz_open_dev$sg", "syz_open_dev"⟩] "syz_open_dev"
        = some "1000001") ∧
    ¬ (∀ (S : List Syscall) (sc : Syscall), sc ∈ S →
        suppliedDefault syzkalls S sc.CallName =
          some (if sc.Name ∈ syzkalls.map Prod.fst then Itoa (mapIndex syzkalls sc.Name)
                else "-1")) := by
  refine ⟨⟨by decide, by decide⟩, fun h => ?_⟩
  have := h [⟨"syz_open_dev$sg", "syz_open_dev"⟩] ⟨"syz_open_dev$sg", "syz_open_dev"⟩
    (List.mem_singleton.mpr rfl)
  revert this
  decide

/-- Claim C2, amended. For every syscall list `S` and every syscall `sc` in
`S`, the default supplied to the probe for `sc`'s symbol is the decimal text
of the table's identifier when `sc`'s kernel-facing name `CallName` is a key
of `syzkalls`, and `-1` otherwise. -/
theorem default_by_CallName (S : List Syscall) (sc : Syscall) (h : sc ∈ S) :
    suppliedDefault syzkalls S sc.CallName =
      some (if sc.CallName ∈ syzkalls.map Prod.fst then Itoa (mapIndex syzkalls sc.CallName)
            else "-1") := by
  unfold suppliedDefault
  rw [buildRequest_lookup]
  have hm : sc.CallName ∈ S.map (fun sc => sc.CallName) := List.mem_map_of_mem _ h
  rw [if_pos hm]
  by_cases hk : sc.CallName ∈ syzkalls.map Prod.fst
  · rw [if_pos hk, if_pos ((syzkalls_key_iff _).mp hk)]
  · rw [if_neg hk, if_neg (fun hz => hk ((syzkalls_key_iff _).mpr hz))]

theorem default_by_CallName_witness :
    suppliedDefault syzkalls [⟨"syz_open_dev$sg", "syz_open_dev"⟩, ⟨"read", "read"⟩] "read" =
      some (if "read" ∈ syzkalls.map Prod.fst then Itoa (mapIndex syzkalls "read") else "-1") :=
  default_by_CallName [⟨"syz_open_dev$sg", "syz_open_dev"⟩, ⟨"read", "read"⟩] ⟨"read", "read"⟩
    (by decide)

/-- Claim C3, counterexample. For the non-synthetic syscall `read`, a probe
that hands back the supplied default `-1` as that text makes
`fetchSyscallsNumbers` fail with a parse error, and no number is stored. -/
theorem sentinel_text_counterexample :
    suppliedDefault syzkalls [⟨"read", "read"⟩] "read" = some "-1" ∧
    probeResult echoProbe syzkalls amd64 [⟨"read", "read"⟩] = ["-1"] ∧
    (fetchSyscallsNumbers echoProbe syzkalls amd64 [⟨"read", "read"⟩]).failure
      = some (.parseNumber "-1" .ErrSyntax) ∧
    (fetchSyscallsNumbers echoProbe syzkalls amd64 [⟨"read", "read"⟩]).value.Numbers = [] := by
  decide

/-- Claim C3, amended. Starting from an empty `Numbers`, if the probe reports
the sentinel at position `i` as the unsigned 64-bit decimal
`18446744073709551615` (the value of `-1` as a `uint64`) and every returned
value is valid, then `fetchSyscallsNumbers` does not fail and
`A.Numbers[i] = -1`; if it returns the text `-1` itself, at any position,
`fetchSyscallsNumbers` fails. -/
theorem sentinel_passes_as_unsigned (fetchValues : Probe) (tbl : List (String × Int))
    (A : Arch) (S : List Syscall) (i : Nat) (hA : A.Numbers = []) :
    ((probeResult fetchValues tbl A S)[i]? = some "18446744073709551615" →
      (∀ s ∈ probeResult fetchValues tbl A S, isDecimal s = true ∧ decimalValue s < 2 ^ 64) →
      (fetchSyscallsNumbers fetchValues tbl A S).failure = none ∧
      (fetchSyscallsNumbers fetchValues tbl A S).value.Numbers[i]? = some (-1)) ∧
    ((probeResult fetchValues tbl A S)[i]? = some "-1" →
      ∃ s e, (fetchSyscallsNumbers fetchValues tbl A S).failure = some (.parseNumber s e)) := by
  constructor
  · intro hi hval
    have hval' : ∀ s ∈ probeResult fetchValues tbl A S,
        isDecimal s = true ∧ decimalValue s < two64 := by
      intro s hs
      have := hval s hs
      refine ⟨this.1, ?_⟩
      have h2 := this.2
      simp only [two64]
      omega
    obtain ⟨hf, hv⟩ := fetchSyscallsNumbers_ok fetchValues tbl A S hval'
    refine ⟨hf, ?_⟩
    rw [hv]
    simp only [hA, List.nil_append, List.getElem?_map, hi, Option.map_some']
    decide
  · intro hi
    obtain ⟨s, e, _, _, hf⟩ := fetchSyscallsNumbers_fail fetchValues tbl A S
      ⟨"-1", List.getElem?_mem hi, by decide⟩
    exact ⟨s, e, hf⟩

theorem sentinel_passes_as_unsigned_witness :
    ((fetchSyscallsNumbers unsignedProbe syzkalls amd64 [⟨"read", "read"⟩]).failure = none ∧
      (fetchSyscallsNumbers unsignedProbe syzkalls amd64 [⟨"read", "read"⟩]).value.Numbers[0]?
        = some (-1)) ∧
    (∃ s e, (fetchSyscallsNumbers echoProbe syzkalls amd64 [⟨"read", "read"⟩]).failure
        = some (.parseNumber s e)) :=
  ⟨(sentinel_passes_as_unsigned unsignedProbe syzkalls amd64 [⟨"read", "read"⟩] 0 rfl).1
      (by decide) (by decide),
    (sentinel_passes_as_unsigned echoProbe syzkalls amd64 [⟨"read", "read"⟩] 0 rfl).2
      (by decide)⟩

/-- Claim C4. `fetchSyscallsNumbers` fails exactly when some string returned by
the probe is not a decimal text of a value below `2^64`; the failure is the
parse failure of such a string; and when it does not fail every returned
string has contributed its own number, in order, none skipped or replaced. -/
theorem fetchSyscallsNumbers_fails_iff_malformed (fetchValues : Probe)
    (tbl : List (String × Int)) (A : Arch) (S : List Syscall) :
    ((fetchSyscallsNumbers fetchValues tbl A S).failure ≠ none ↔
      ∃ s ∈ probeResult fetchValues tbl A S,
        ¬ (isDecimal s = true ∧ decimalValue s < 2 ^ 64)) ∧
    (∀ f, (fetchSyscallsNumbers fetchValues tbl A S).failure = some f →
      ∃ s e, s ∈ probeResult fetchValues tbl A S ∧ ParseUint s = .error e ∧
        f = .parseNumber s e) ∧
    ((fetchSyscallsNumbers fetchValues tbl A S).failure = none →
      (fetchSyscallsNumbers fetchValues tbl A S).value.Numbers =
        A.Numbers ++ (probeResult fetchValues tbl A S).map fun s => toInt (decimalValue s)) := by
  have h64 : (2 : Nat) ^ 64 = two64 := by simp [two64]
  rw [h64]
  by_cases hbad : ∃ s ∈ probeResult fetchValues tbl A S,
      ¬ (isDecimal s = true ∧ decimalValue s < two64)
  · obtain ⟨s, e, hs, he, hf⟩ := fetchSyscallsNumbers_fail fetchValues tbl A S hbad
    refine ⟨⟨fun _ => hbad, fun _ => by simp [hf]⟩, ?_, ?_⟩
    · intro f hf'
      rw [hf] at hf'
      exact ⟨s, e, hs, he, (Option.some.inj hf').symm⟩
    · intro hn
      rw [hf] at hn
      cases hn
  · have hall : ∀ s ∈ probeResult fetchValues tbl A S,
        isDecimal s = true ∧ decimalValue s < two64 := by
      intro s hs
      by_contra hc
      exact hbad ⟨s, hs, hc⟩
    obtain ⟨hf, hv⟩ := fetchSyscallsNumbers_ok fetchValues tbl A S hall
    refine ⟨⟨fun h => absurd hf h, fun h => absurd h hbad⟩, ?_, ?_⟩
    · intro f hf'
      rw [hf] at hf'
      cases hf'
    · intro _
      rw [hv]

/-- Claim C6. Starting from an empty `Numbers`, when the syscall at position
`i` has `Name = CallName = k` for a key `k` of `syzkalls`, the probe returns at
position `i` the default it was supplied for that symbol and every other
returned value is valid, `fetchSyscallsNumbers` does not fail and
`A.Numbers[i] = syzkalls[k]`, whatever the architecture; for
`k = "syz_open_dev"` the number is `1000001`. -/
theorem synthetic_default_resolves_to_identifier (fetchValues : Probe) (A : Arch)
    (S : List Syscall) (i : Nat) (k : String)
    (hA : A.Numbers = [])
    (hS : S[i]? = some ⟨k, k⟩)
    (hk : k ∈ syzkalls.map Prod.fst)
    (hr : (probeResult fetchValues syzkalls A S)[i]? = suppliedDefault syzkalls S k)
    (hval : ∀ j s, j ≠ i → (probeResult fetchValues syzkalls A S)[j]? = some s →
      isDecimal s = true ∧ decimalValue s < 2 ^ 64) :
    (fetchSyscallsNumbers fetchValues syzkalls A S).failure = none ∧
    (fetchSyscallsNumbers fetchValues syzkalls A S).value.Numbers[i]?
      = some (mapIndex syzkalls k) ∧
    (k = "syz_open_dev" →
      (fetchSyscallsNumbers fetchValues syzkalls A S).value.Numbers[i]? = some 1000001) := by
  have h64 : (2 : Nat) ^ 64 = two64 := by simp [two64]
  rw [h64] at hval
  have hmem : k ∈ S.map (fun sc => sc.CallName) :=
    List.mem_map.mpr ⟨⟨k, k⟩, List.getElem?_mem hS, rfl⟩
  have hd : suppliedDefault syzkalls S k = some (Itoa (mapIndex syzkalls k)) := by
    unfold suppliedDefault
    rw [buildRequest_lookup, if_pos hmem, if_pos ((syzkalls_key_iff k).mp hk)]
  rw [hd] at hr
  obtain ⟨hdec, hlt, hround⟩ := syzkalls_roundtrip k hk
  have hall : ∀ s ∈ probeResult fetchValues syzkalls A S,
      isDecimal s = true ∧ decimalValue s < two64 := by
    intro s hs
    obtain ⟨j, hj⟩ := List.mem_iff_getElem?.mp hs
    by_cases hji : j = i
    · subst hji
      rw [hr] at hj
      cases hj
      exact ⟨hdec, hlt⟩
    · exact hval j s hji hj
  obtain ⟨hf, hv⟩ := fetchSyscallsNumbers_ok fetchValues syzkalls A S hall
  have hnum : (fetchSyscallsNumbers fetchValues syzkalls A S).value.Numbers[i]?
      = some (mapIndex syzkalls k) := by
    rw [hv]
    simp only [hA, List.nil_append, List.getElem?_map, hr, Option.map_some', hround]
  refine ⟨hf, hnum, ?_⟩
  intro hk'
  rw [hnum, hk']
  decide

theorem synthetic_default_resolves_to_identifier_witness :
    (fetchSyscallsNumbers unsignedProbe syzkalls arm64
      [⟨"read", "read"⟩, ⟨"syz_open_dev", "syz_open_dev"⟩]).failure = none ∧
    (fetchSyscallsNumbers unsignedProbe syzkalls arm64
      [⟨"read", "read"⟩, ⟨"syz_open_dev", "syz_open_dev"⟩]).value.Numbers[1]?
      = some (mapIndex syzkalls "syz_open_dev") ∧
    ("syz_open_dev" = "syz_open_dev" →
      (fetchSyscallsNumbers unsignedProbe syzkalls arm64
        [⟨"read", "read"⟩, ⟨"syz_open_dev", "syz_open_dev"⟩]).value.Numbers[1]?
        = some 1000001) :=
  synthetic_default_resolves_to_identifier unsignedProbe arm64
    [⟨"read", "read"⟩, ⟨"syz_open_dev", "syz_open_dev"⟩] 1 "syz_open_dev"
    rfl rfl (by decide) (by decide)
    (by
      intro j s hj h
      have hr : probeResult unsignedProbe syzkalls arm64
          [⟨"read", "read"⟩, ⟨"syz_open_dev", "syz_open_dev"⟩]
          = ["18446744073709551615", "1000001"] := by decide
      rw [hr] at h
      match j, hj, h with
      | 0, _, h =>
        simp only [List.getElem?_cons_zero, Option.some.injEq] at h
        subst h
        decide
      | 1, hj, _ => exact absurd rfl hj
      | j + 2, _, h => simp at h)

/-- Claim C5. In a registry whose `GOARCH` identifiers are pairwise distinct,
as in the configured one, when the probe returns for an architecture `A` a
value that does not parse, `generateSyscallsNumbers` aborts with a parse
failure, and the files written contain neither the table of `A`, nor the
table of an architecture after `A`, nor `executor/syscalls.h`. -/
theorem generateSyscallsNumbers_aborts_before_writing (fetchValues : Probe)
    (tbl : List (String × Int)) (S : List Syscall) (pre : List Arch) (A : Arch)
    (post : List Arch)
    (hnd : ((pre ++ A :: post).map fun a => a.GOARCH).Nodup)
    (hbad : ∃ s ∈ probeResult fetchValues tbl A S,
      ¬ (isDecimal s = true ∧ decimalValue s < 2 ^ 64)) :
    (∃ s e, (generateSyscallsNumbers fetchValues tbl (pre ++ A :: post) S).failure
      = some (.parseNumber s e)) ∧
    "sys/sys_" ++ A.GOARCH ++ ".go" ∉
      writtenFiles (generateSyscallsNumbers fetchValues tbl (pre ++ A :: post) S).trace ∧
    (∀ B ∈ post, "sys/sys_" ++ B.GOARCH ++ ".go" ∉
      writtenFiles (generateSyscallsNumbers fetchValues tbl (pre ++ A :: post) S).trace) ∧
    "executor/syscalls.h" ∉
      writtenFiles (generateSyscallsNumbers fetchValues tbl (pre ++ A :: post) S).trace := by
  have h64 : (2 : Nat) ^ 64 = two64 := by simp [two64]
  rw [h64] at hbad
  obtain ⟨s0, e0, _, _, hfA⟩ := fetchSyscallsNumbers_fail fetchValues tbl A S hbad
  have hA : (fetchSyscallsNumbers fetchValues tbl A S).failure ≠ none := by simp [hfA]
  obtain ⟨hfail, hfiles⟩ := resolveArchs_stops fetchValues tbl S pre A post hA
  cases hf : (resolveArchs fetchValues tbl S (pre ++ A :: post)).failure with
  | none => exact absurd hf hfail
  | some f =>
    obtain ⟨s, e, hse⟩ := resolveArchs_failure_kind fetchValues tbl S _ f hf
    have htrace : (generateSyscallsNumbers fetchValues tbl (pre ++ A :: post) S).trace
        = (resolveArchs fetchValues tbl S (pre ++ A :: post)).trace := by
      simp [generateSyscallsNumbers, hf]
    have hfailure : (generateSyscallsNumbers fetchValues tbl (pre ++ A :: post) S).failure
        = some f := by
      simp [generateSyscallsNumbers, hf]
    rw [htrace, hfailure]
    rw [List.map_append, List.map_cons, List.nodup_append] at hnd
    obtain ⟨_, hnd2, hdisj⟩ := hnd
    refine ⟨⟨s, e, by rw [hse]⟩, ?_, ?_, ?_⟩
    · intro hmem
      obtain ⟨B, hB, hBeq⟩ := List.mem_map.mp (hfiles _ hmem)
      have hg : B.GOARCH = A.GOARCH := archPath_injective _ _ hBeq
      exact hdisj (List.mem_map.mpr ⟨B, hB, rfl⟩) (hg ▸ List.mem_cons_self _ _)
    · intro C hC hmem
      obtain ⟨B, hB, hBeq⟩ := List.mem_map.mp (hfiles _ hmem)
      have hg : B.GOARCH = C.GOARCH := archPath_injective _ _ hBeq
      exact hdisj (List.mem_map.mpr ⟨B, hB, rfl⟩)
        (hg ▸ List.mem_cons_of_mem _ (List.mem_map.mpr ⟨C, hC, rfl⟩))
    · intro hmem
      obtain ⟨B, _, hBeq⟩ := List.mem_map.mp (hfiles _ hmem)
      exact archPath_ne_header _ hBeq

theorem generateSyscallsNumbers_aborts_before_writing_witness :
    (∃ s e, (generateSyscallsNumbers brokenOnArm64 syzkalls ([amd64] ++ arm64 :: [ppc64le])
      [⟨"read", "read"⟩]).failure = some (.parseNumber s e)) ∧
    "sys/sys_" ++ arm64.GOARCH ++ ".go" ∉
      writtenFiles (generateSyscallsNumbers brokenOnArm64 syzkalls
        ([amd64] ++ arm64 :: [ppc64le]) [⟨"read", "read"⟩]).trace ∧
    (∀ B ∈ [ppc64le], "sys/sys_" ++ B.GOARCH ++ ".go" ∉
      writtenFiles (generateSyscallsNumbers brokenOnArm64 syzkalls
        ([amd64] ++ arm64 :: [ppc64le]) [⟨"read", "read"⟩]).trace) ∧
    "executor/syscalls.h" ∉
      writtenFiles (generateSyscallsNumbers brokenOnArm64 syzkalls
        ([amd64] ++ arm64 :: [ppc64le]) [⟨"read", "read"⟩]).trace :=
  generateSyscallsNumbers_aborts_before_writing brokenOnArm64 syzkalls [⟨"read", "read"⟩]
    [amd64] arm64 [ppc64le] (by decide) ⟨"abc", by decide, by decide⟩

/-- Claim C7. For every synthetic table (a map, so with pairwise distinct
keys) there is one list `fc`, with exactly the entries of the table and
strictly increasing in the name, such that for every registry, of any length,
whose architectures hold a number per syscall, `generateExecutorSyscalls`
builds `FakeCalls = fc` and writes a header whose `#define` block is one line
`#define __NR_<name> <id>` per element of `fc`. -/
theorem fakeCalls_sorted_one_per_key (tbl : List (String × Int))
    (hk : (tbl.map Prod.fst).Nodup) :
    ∃ fc : List SyscallData,
      fc.Perm (tbl.map fun e => ⟨e.1, e.2⟩) ∧
      fc.Pairwise (fun a b => a.Name < b.Name) ∧
      ∀ (reg : List Arch) (S : List Syscall), (∀ a ∈ reg, S.length ≤ a.Numbers.length) →
        ∃ d, executorData reg tbl S = .ok d ∧ d.FakeCalls = fc ∧
          generateExecutorSyscalls reg tbl S =
            ⟨(), [Event.writeFile "executor/syscalls.h"
              ("// AUTOGENERATED FILE\n\n"
                ++ String.join (fc.map fun c =>
                    "#define __NR_" ++ c.Name ++ "\t" ++ Itoa c.NR ++ "\n")
                ++ "\n\nstruct call_t \x7b\n\tconst char*\tname;\n\tint\t\tsys_nr;\n\x7d;\n\n"
                ++ String.join (d.Archs.map archBlock)
                ++ "\n")], none⟩ := by
  refine ⟨sortSyscallArray (buildFakeCalls tbl []), ?_, ?_, ?_⟩
  · simpa [buildFakeCalls_eq] using sortSyscallArray_perm (buildFakeCalls tbl [])
  · exact sortSyscallArray_strict _ (by rw [fakeCalls_names]; exact hk)
  · intro reg S h
    refine ⟨_, executorData_eq reg tbl S h, rfl, ?_⟩
    simp only [generateExecutorSyscalls, executorData_eq reg tbl S h]
    rfl

theorem fakeCalls_sorted_one_per_key_witness :
    ∃ fc : List SyscallData,
      fc.Perm (syzkalls.map fun e => ⟨e.1, e.2⟩) ∧
      fc.Pairwise (fun a b => a.Name < b.Name) ∧
      ∀ (reg : List Arch) (S : List Syscall), (∀ a ∈ reg, S.length ≤ a.Numbers.length) →
        ∃ d, executorData reg syzkalls S = .ok d ∧ d.FakeCalls = fc ∧
          generateExecutorSyscalls reg syzkalls S =
            ⟨(), [Event.writeFile "executor/syscalls.h"
              ("// AUTOGENERATED FILE\n\n"
                ++ String.join (fc.map fun c =>
                    "#define __NR_" ++ c.Name ++ "\t" ++ Itoa c.NR ++ "\n")
                ++ "\n\nstruct call_t \x7b\n\tconst char*\tname;\n\tint\t\tsys_nr;\n\x7d;\n\n"
                ++ String.join (d.Archs.map archBlock)
                ++ "\n")], none⟩ :=
  fakeCalls_sorted_one_per_key syzkalls (by decide)

/-- Claim C8. When every architecture of the registry holds `len(S)` numbers,
`generateExecutorSyscalls` builds one `ArchData` per architecture, in registry
order, the `i`-th with the `CARCH` of the `i`-th architecture and `len(S)`
calls, the `j`-th being `(S[j].Name, Numbers[j])`; the block of an
architecture renders each call as the line `{"<Name>", <NR>},`; and for the
syscall list `[read]` and `Numbers = [0]` the block guarded by `__X__` holds
`{"read", 0},`. -/
theorem executorData_zips_names_with_numbers (reg : List Arch) (tbl : List (String × Int))
    (S : List Syscall) (h : ∀ a ∈ reg, a.Numbers.length = S.length) :
    (∃ d, executorData reg tbl S = .ok d ∧
      generateExecutorSyscalls reg tbl S =
        ⟨(), [Event.writeFile "executor/syscalls.h" (syscallsTempl d)], none⟩ ∧
      d.Archs.length = reg.length ∧
      (∀ (i : Nat) (a : Arch), reg[i]? = some a → ∃ ad, d.Archs[i]? = some ad ∧ ad.CARCH = a.CARCH ∧
        ad.Calls.length = S.length ∧
        (∀ (j : Nat) (c : Syscall), S[j]? = some c → ∃ nr, a.Numbers[j]? = some nr ∧
          ad.Calls[j]? = some ⟨c.Name, nr⟩) ∧
        archBlock ad = "\n" ++ guardLine ad.CARCH ++ "\ncall_t syscalls[] = \x7b\n"
          ++ String.join (ad.Calls.map fun c =>
              "\t\x7b\"" ++ c.Name ++ "\", " ++ Itoa c.NR ++ "\x7d,\n")
          ++ "\n\x7d;\n#endif\n")) ∧
    (∃ d, executorData [archX] tbl [⟨"read", "read"⟩] = .ok d ∧
      d.Archs = [⟨["__X__"], [⟨"read", 0⟩]⟩] ∧
      String.join (d.Archs.map archBlock) =
        "\n#if defined(__X__) || 0\ncall_t syscalls[] = \x7b\n\t\x7b\"read\", 0\x7d,\n\n\x7d;\n#endif\n")
    := by
  have hle : ∀ a ∈ reg, S.length ≤ a.Numbers.length := fun a ha => le_of_eq (h a ha).symm
  refine ⟨⟨_, executorData_eq reg tbl S hle, ?_, ?_, ?_⟩, ?_⟩
  · simp only [generateExecutorSyscalls, executorData_eq reg tbl S hle]
  · simp
  · intro i a hia
    refine ⟨⟨a.CARCH, List.zipWith (fun c nr => ⟨c.Name, nr⟩) S a.Numbers⟩, ?_, rfl, ?_, ?_, rfl⟩
    · simp [List.getElem?_map, hia]
    · simp [h a (List.getElem?_mem hia)]
    · intro j c hjc
      have hj : j < S.length := (List.getElem?_eq_some.mp hjc).1
      have hj' : j < a.Numbers.length := by rw [h a (List.getElem?_mem hia)]; exact hj
      refine ⟨a.Numbers[j], List.getElem?_eq_getElem hj', ?_⟩
      simp [List.getElem?_zipWith, hjc, List.getElem?_eq_getElem hj']
  · refine ⟨_, executorData_eq [archX] tbl [⟨"read", "read"⟩] (by decide), rfl, ?_⟩
    show String.join ([(⟨["__X__"], [⟨"read", 0⟩]⟩ : ArchData)].map archBlock) = _
    decide

theorem executorData_zips_names_with_numbers_witness :
    ∃ d, executorData [archX] syzkalls [⟨"read", "read"⟩] = .ok d ∧
      generateExecutorSyscalls [archX] syzkalls [⟨"read", "read"⟩] =
        ⟨(), [Event.writeFile "executor/syscalls.h" (syscallsTempl d)], none⟩ ∧
      d.Archs.length = [archX].length ∧
      (∀ (i : Nat) (a : Arch), [archX][i]? = some a → ∃ ad, d.Archs[i]? = some ad ∧ ad.CARCH = a.CARCH ∧
        ad.Calls.length = [(⟨"read", "read"⟩ : Syscall)].length ∧
        (∀ (j : Nat) (c : Syscall), [(⟨"read", "read"⟩ : Syscall)][j]? = some c → ∃ nr, a.Numbers[j]? = some nr ∧
          ad.Calls[j]? = some ⟨c.Name, nr⟩) ∧
        archBlock ad = "\n" ++ guardLine ad.CARCH ++ "\ncall_t syscalls[] = \x7b\n"
          ++ String.join (ad.Calls.map fun c =>
              "\t\x7b\"" ++ c.Name ++ "\", " ++ Itoa c.NR ++ "\x7d,\n")
          ++ "\n\x7d;\n#endif\n") :=
  (executorData_zips_names_with_numbers [archX] syzkalls [⟨"read", "read"⟩] (by decide)).1

/-- Claim C9. `generateSyscallsNumbersArch` makes one call, `writeSource` with
the path `sys/sys_<GOARCH>.go` and the text made of the preamble with the build
tag `GOARCH`, then `var numbers = []int{ `, then the decimal text of each
element of `Numbers` in order followed by a comma and a blank, then ` }` and a
newline; the texts listed denote the numbers of `Numbers`; the call depends on
the architecture through `GOARCH` and `Numbers` only and not on the syscall
list; and for `Numbers = [0]` the table lists exactly `0`. -/
theorem generateSyscallsNumbersArch_text (A : Arch) (S : List Syscall) :
    generateSyscallsNumbersArch A S =
      Event.writeSource ("sys/sys_" ++ A.GOARCH ++ ".go")
        ("// AUTOGENERATED FILE\n\n// +build " ++ A.GOARCH
          ++ "\n\npackage sys\n\n// Maps internal syscall ID onto kernel syscall number.\n"
          ++ "var numbers = []int\x7b "
          ++ String.join ((A.Numbers.map Itoa).map fun item => item ++ ", ")
          ++ " \x7d\n") ∧
    (A.Numbers.map Itoa).map decimalInt = A.Numbers ∧
    (∀ (B : Arch) (S' : List Syscall), B.GOARCH = A.GOARCH → B.Numbers = A.Numbers →
      generateSyscallsNumbersArch B S' = generateSyscallsNumbersArch A S) ∧
    generateSyscallsNumbersArch ⟨"amd64", ["__x86_64__"], "x86", "asm/unistd.h", [0]⟩ S =
      Event.writeSource "sys/sys_amd64.go"
        "// AUTOGENERATED FILE\n\n// +build amd64\n\npackage sys\n\n// Maps internal syscall ID onto kernel syscall number.\nvar numbers = []int\x7b 0,  \x7d\n"
    := by
  refine ⟨?_, ?_, ?_, ?_⟩
  · simp only [generateSyscallsNumbersArch, archTempl, List.map_map, String.append_assoc]
    rfl
  · rw [List.map_map]
    conv_rhs => rw [← List.map_id A.Numbers]
    exact List.map_congr_left fun i _ => decimalInt_Itoa i
  · intro B S' hg hn
    simp only [generateSyscallsNumbersArch, archTempl, hg, hn]
  · have h : generateSyscallsNumbersArch
          ⟨"amd64", ["__x86_64__"], "x86", "asm/unistd.h", [0]⟩ [] =
        Event.writeSource "sys/sys_amd64.go"
          "// AUTOGENERATED FILE\n\n// +build amd64\n\npackage sys\n\n// Maps internal syscall ID onto kernel syscall number.\nvar numbers = []int\x7b 0,  \x7d\n"
        := by decide
    exact h

/-- Claim C10. For two enumeration orders of the same map `syzkalls`,
`generateExecutorSyscalls` has the same outcome, so it writes the same bytes;
and two runs of `generateSyscallsNumbers` from the same registry, with the same
syscall list and the same probe, have the same outcome, whatever order the map
is enumerated in: the same calls with the same bytes for every table and for
the header. -/
theorem generation_deterministic (t₁ t₂ : List (String × Int)) (hp : t₁.Perm t₂)
    (hk : (t₁.map Prod.fst).Nodup) :
    (∀ (reg : List Arch) (S : List Syscall),
      generateExecutorSyscalls reg t₁ S = generateExecutorSyscalls reg t₂ S) ∧
    (∀ (fetchValues : Probe) (reg : List Arch) (S : List Syscall),
      generateSyscallsNumbers fetchValues t₁ reg S =
        generateSyscallsNumbers fetchValues t₂ reg S) := by
  have hidx : ∀ k, mapIndex t₁ k = mapIndex t₂ k := by
    intro k
    simp only [mapIndex, perm_lookup t₁ t₂ hp hk k]
  refine ⟨fun reg S => generateExecutorSyscalls_congr reg t₁ t₂ hp hk S, ?_⟩
  intro fetchValues reg S
  simp only [generateSyscallsNumbers, resolveArchs_congr fetchValues t₁ t₂ hidx,
    generateExecutorSyscalls_congr _ t₁ t₂ hp hk]

theorem generation_deterministic_witness :
    (∀ (reg : List Arch) (S : List Syscall),
      generateExecutorSyscalls reg syzkalls S =
        generateExecutorSyscalls reg syzkalls.reverse S) ∧
    (∀ (fetchValues : Probe) (reg : List Arch) (S : List Syscall),
      generateSyscallsNumbers fetchValues syzkalls reg S =
        generateSyscallsNumbers fetchValues syzkalls.reverse reg S) :=
  generation_deterministic syzkalls syzkalls.reverse (List.reverse_perm syzkalls).symm
    (by decide)

/-- Claim C11. The guard of an architecture block is the line
`#if defined(m1) || ... || defined(mk) || 0` over its `CARCH` macros in order;
as an expression of the preprocessor it holds, under a set of defined macros,
exactly when one of the `CARCH` macros is defined; so for two architectures
with disjoint `CARCH` and a single defined macro the two guards do not both
hold; and the three registered architectures have pairwise disjoint `CARCH`. -/
theorem guard_selects_architecture (carch : List String) :
    (∀ ad : ArchData, ad.CARCH = carch → ∃ rest, archBlock ad = "\n" ++ guardLine carch ++ rest) ∧
    guardLine carch =
      "#if " ++ String.join (carch.map fun m => "defined(" ++ m ++ ") || ") ++ "0" ∧
    guardLine carch = "#if " ++ (guardExpr carch).render ∧
    (∀ isDefined : String → Bool,
      (guardExpr carch).eval isDefined = true ↔ ∃ m ∈ carch, isDefined m = true) ∧
    (∀ (carch' : List String) (m : String), carch.Disjoint carch' →
      ¬ ((guardExpr carch).eval (fun x => x == m) = true ∧
         (guardExpr carch').eval (fun x => x == m) = true)) ∧
    archs.Pairwise (fun a b => a.CARCH.Disjoint b.CARCH) ∧
    archs.map (fun a => guardLine a.CARCH) =
      ["#if defined(__x86_64__) || 0", "#if defined(__aarch64__) || 0",
       "#if defined(__ppc64__) || defined(__PPC64__) || defined(__powerpc64__) || 0"] := by
  refine ⟨?_, rfl, guardLine_render carch, ?_, ?_, ?_, by decide⟩
  · intro ad had
    refine ⟨"\ncall_t syscalls[] = \x7b\n" ++ String.join (ad.Calls.map callLine)
      ++ "\n\x7d;\n#endif\n", ?_⟩
    simp only [archBlock, had, String.append_assoc]
  · intro isDefined
    rw [guardExpr_eval, List.any_eq_true]
  · intro carch' m hdis h
    rw [guardExpr_eval, guardExpr_eval, List.any_eq_true, List.any_eq_true] at h
    obtain ⟨⟨a, ha, hae⟩, ⟨b, hb, hbe⟩⟩ := h
    have ha' : a = m := by simpa using hae
    have hb' : b = m := by simpa using hbe
    exact hdis (ha' ▸ ha) (hb' ▸ hb)
  · simp [archs, List.Disjoint]

theorem guard_selects_architecture_witness :
    ((guardExpr amd64.CARCH).eval (fun x => x == "__x86_64__") = true ↔
      ∃ m ∈ amd64.CARCH, (fun x : String => x == "__x86_64__") m = true) ∧
    ¬ ((guardExpr amd64.CARCH).eval (fun x => x == "__x86_64__") = true ∧
       (guardExpr arm64.CARCH).eval (fun x => x == "__x86_64__") = true) :=
  ⟨(guard_selects_architecture amd64.CARCH).2.2.2.1 (fun x => x == "__x86_64__"),
    (guard_selects_architecture amd64.CARCH).2.2.2.2.1 arm64.CARCH "__x86_64__"
      (by simp [amd64, arm64, List.Disjoint])⟩

/-- Claim C12, counterexample. For the one syscall `read`, a probe that returns
no value leaves `Numbers` empty without any failure, and the tables of the
three architectures are written from it before the header panics; a probe that
returns two values leaves two numbers, and the whole generation, header
included, goes through. -/
theorem length_invariant_counterexample :
    ((fetchSyscallsNumbers emptyProbe syzkalls amd64 [⟨"read", "read"⟩]).failure = none ∧
      (fetchSyscallsNumbers emptyProbe syzkalls amd64 [⟨"read", "read"⟩]).value.Numbers = [] ∧
      writtenFiles (generateSyscallsNumbers emptyProbe syzkalls archs [⟨"read", "read"⟩]).trace
        = ["sys/sys_amd64.go", "sys/sys_arm64.go", "sys/sys_ppc64le.go"]) ∧
    ((fetchSyscallsNumbers twoProbe syzkalls amd64 [⟨"read", "read"⟩]).failure = none ∧
      (fetchSyscallsNumbers twoProbe syzkalls amd64 [⟨"read", "read"⟩]).value.Numbers = [0, 0] ∧
      (generateSyscallsNumbers twoProbe syzkalls archs [⟨"read", "read"⟩]).failure = none ∧
      writtenFiles (generateSyscallsNumbers twoProbe syzkalls archs [⟨"read", "read"⟩]).trace
        = ["sys/sys_amd64.go", "sys/sys_arm64.go", "sys/sys_ppc64le.go",
           "executor/syscalls.h"]) := by
  decide

/-- Claim C12, amended. Starting from an empty `Numbers`, after
`fetchSyscallsNumbers` either generation has failed or `len(A.Numbers)` is the
number of strings the probe returned; so when the probe returns exactly
`len(S)` strings, either generation has failed or `len(A.Numbers) = len(S)`. -/
theorem length_follows_probe (fetchValues : Probe) (tbl : List (String × Int)) (A : Arch)
    (S : List Syscall) (hA : A.Numbers = []) :
    ((fetchSyscallsNumbers fetchValues tbl A S).failure ≠ none ∨
      (fetchSyscallsNumbers fetchValues tbl A S).value.Numbers.length
        = (probeResult fetchValues tbl A S).length) ∧
    ((probeResult fetchValues tbl A S).length = S.length →
      (fetchSyscallsNumbers fetchValues tbl A S).failure ≠ none ∨
      (fetchSyscallsNumbers fetchValues tbl A S).value.Numbers.length = S.length) := by
  have key : (fetchSyscallsNumbers fetchValues tbl A S).failure ≠ none ∨
      (fetchSyscallsNumbers fetchValues tbl A S).value.Numbers.length
        = (probeResult fetchValues tbl A S).length := by
    by_cases hbad : ∃ s ∈ probeResult fetchValues tbl A S,
        ¬ (isDecimal s = true ∧ decimalValue s < two64)
    · obtain ⟨s, e, _, _, hf⟩ := fetchSyscallsNumbers_fail fetchValues tbl A S hbad
      exact Or.inl (by simp [hf])
    · have hall : ∀ s ∈ probeResult fetchValues tbl A S,
          isDecimal s = true ∧ decimalValue s < two64 := by
        intro s hs
        by_contra hc
        exact hbad ⟨s, hs, hc⟩
      obtain ⟨_, hv⟩ := fetchSyscallsNumbers_ok fetchValues tbl A S hall
      exact Or.inr (by rw [hv]; simp [hA])
  refine ⟨key, fun hlen => ?_⟩
  rcases key with h | h
  · exact Or.inl h
  · exact Or.inr (h.trans hlen)

theorem length_follows_probe_witness :
    ((fetchSyscallsNumbers zeroProbe syzkalls amd64 [⟨"read", "read"⟩]).failure ≠ none ∨
      (fetchSyscallsNumbers zeroProbe syzkalls amd64 [⟨"read", "read"⟩]).value.Numbers.length
        = (probeResult zeroProbe syzkalls amd64 [⟨"read", "read"⟩]).length) ∧
    ((fetchSyscallsNumbers zeroProbe syzkalls amd64 [⟨"read", "read"⟩]).failure ≠ none ∨
      (fetchSyscallsNumbers zeroProbe syzkalls amd64 [⟨"read", "read"⟩]).value.Numbers.length
        = [(⟨"read", "read"⟩ : Syscall)].length) :=
  ⟨(length_follows_probe zeroProbe syzkalls amd64 [⟨"read", "read"⟩] rfl).1,
    (length_follows_probe zeroProbe syzkalls amd64 [⟨"read", "read"⟩] rfl).2 rfl⟩

/-- Claim C13. `fetchSyscallsNumbers` calls the probe exactly once, with the
header subtree `A.KernelHeaderArch`, the include list `[A.KernelInclude]`, the
symbols `__NR_<CallName>` of the syscalls in order, `len(S)` of them, and a
defaults map whose keys, pairwise distinct, are exactly those symbols. -/
theorem probe_invoked_once (fetchValues : Probe) (tbl : List (String × Int)) (A : Arch)
    (S : List Syscall) :
    ∃ (vals : List String) (defines : List (String × String)),
      (fetchSyscallsNumbers fetchValues tbl A S).trace =
        [Event.fetchValues A.KernelHeaderArch vals [A.KernelInclude] defines] ∧
      vals.length = S.length ∧
      (∀ (i : Nat) (sc : Syscall), S[i]? = some sc →
        vals[i]? = some ("__NR_" ++ sc.CallName)) ∧
      (∀ k, k ∈ defines.map Prod.fst ↔ k ∈ vals) ∧
      (defines.map Prod.fst).Nodup := by
  have hvals : (buildRequest tbl S ([], [])).1 = S.map fun sc => "__NR_" ++ sc.CallName := by
    simpa using buildRequest_fst tbl S [] []
  refine ⟨(buildRequest tbl S ([], [])).1, (buildRequest tbl S ([], [])).2, rfl, ?_, ?_, ?_, ?_⟩
  · rw [hvals]; simp
  · intro i sc hi
    rw [hvals, List.getElem?_map, hi]
    rfl
  · intro k
    rw [hvals, buildRequest_keys]
    simp
  · exact buildRequest_nodup tbl S [] [] (by simp)

/-- Claim C15. Every identifier of `syzkalls` is positive and of the form
`1000000 + k` with `1 ≤ k ≤ 4`, the identifiers are pairwise distinct, and for
every name the test `syzkalls[name] != 0` holds exactly when the name is a key
of the table. -/
theorem syzkalls_identifiers :
    (∀ e ∈ syzkalls, 0 < e.2 ∧ ∃ k : Int, 1 ≤ k ∧ k ≤ 4 ∧ e.2 = 1000000 + k) ∧
    (syzkalls.map Prod.snd).Nodup ∧
    (syzkalls.map Prod.fst).Nodup ∧
    (∀ name : String, mapIndex syzkalls name ≠ 0 ↔ name ∈ syzkalls.map Prod.fst) := by
  refine ⟨?_, by decide, by decide, fun name => (syzkalls_key_iff name).symm⟩
  intro e he
  simp only [syzkalls, List.mem_cons, List.mem_singleton, List.not_mem_nil, or_false] at he
  rcases he with rfl | rfl | rfl | rfl
  · exact ⟨by decide, 1, by decide, by decide, by decide⟩
  · exact ⟨by decide, 2, by decide, by decide, by decide⟩
  · exact ⟨by decide, 3, by decide, by decide, by decide⟩
  · exact ⟨by decide, 4, by decide, by decide, by decide⟩

/-- Claim C16. When every returned value parses, `fetchSyscallsNumbers` leaves
`A.Numbers = P ++ V`, where `P` is the prior `Numbers` and `V` the parsed
values in order, and leaves `GOARCH`, `CARCH`, `KernelHeaderArch` and
`KernelInclude` as they were; so, starting from an empty `Numbers` with a probe
that returns `len(S)` values, resolving the same architecture a second time
leaves `2 * len(S)` numbers, and for a non-empty `S` the second resolution
changes the architecture again. -/
theorem fetchSyscallsNumbers_appends (fetchValues : Probe) (tbl : List (String × Int))
    (A : Arch) (S : List Syscall)
    (hval : ∀ s ∈ probeResult fetchValues tbl A S,
      isDecimal s = true ∧ decimalValue s < 2 ^ 64) :
    (fetchSyscallsNumbers fetchValues tbl A S).failure = none ∧
    (fetchSyscallsNumbers fetchValues tbl A S).value.Numbers =
      A.Numbers ++ (probeResult fetchValues tbl A S).map (fun s => toInt (decimalValue s)) ∧
    (fetchSyscallsNumbers fetchValues tbl A S).value.GOARCH = A.GOARCH ∧
    (fetchSyscallsNumbers fetchValues tbl A S).value.CARCH = A.CARCH ∧
    (fetchSyscallsNumbers fetchValues tbl A S).value.KernelHeaderArch = A.KernelHeaderArch ∧
    (fetchSyscallsNumbers fetchValues tbl A S).value.KernelInclude = A.KernelInclude ∧
    (A.Numbers = [] → (probeResult fetchValues tbl A S).length = S.length →
      (fetchSyscallsNumbers fetchValues tbl
          (fetchSyscallsNumbers fetchValues tbl A S).value S).value.Numbers.length
        = 2 * S.length ∧
      (S ≠ [] →
        (fetchSyscallsNumbers fetchValues tbl
            (fetchSyscallsNumbers fetchValues tbl A S).value S).value
          ≠ (fetchSyscallsNumbers fetchValues tbl A S).value)) := by
  have h64 : (2 : Nat) ^ 64 = two64 := by simp [two64]
  rw [h64] at hval
  obtain ⟨hf, hv⟩ := fetchSyscallsNumbers_ok fetchValues tbl A S hval
  obtain ⟨f1, f2, f3, f4⟩ := parseValues_frame (probeResult fetchValues tbl A S) A
  have hnum : (fetchSyscallsNumbers fetchValues tbl A S).value.Numbers =
      A.Numbers ++ (probeResult fetchValues tbl A S).map (fun s => toInt (decimalValue s)) := by
    rw [hv]
  refine ⟨hf, hnum, f1, f2, f3, f4, ?_⟩
  intro hA hlen
  have hpr : probeResult fetchValues tbl (fetchSyscallsNumbers fetchValues tbl A S).value S
      = probeResult fetchValues tbl A S := probeResult_congr fetchValues tbl A _ S f3 f4
  have hval2 : ∀ s ∈ probeResult fetchValues tbl
      (fetchSyscallsNumbers fetchValues tbl A S).value S,
      isDecimal s = true ∧ decimalValue s < two64 := by
    rw [hpr]; exact hval
  obtain ⟨_, hv2⟩ := fetchSyscallsNumbers_ok fetchValues tbl
    (fetchSyscallsNumbers fetchValues tbl A S).value S hval2
  have hlen2 : (fetchSyscallsNumbers fetchValues tbl
      (fetchSyscallsNumbers fetchValues tbl A S).value S).value.Numbers.length
        = 2 * S.length := by
    rw [hv2]
    simp only [hpr, hnum, hA, List.nil_append, List.length_append, List.length_map, hlen]
    omega
  refine ⟨hlen2, ?_⟩
  intro hS heq
  have h1 := congrArg (fun a : Arch => a.Numbers.length) heq
  simp only [hlen2, hnum, hA, List.nil_append, List.length_map, hlen] at h1
  have : S.length ≠ 0 := fun h0 => hS (List.length_eq_zero.mp h0)
  omega

theorem fetchSyscallsNumbers_appends_witness :
    (fetchSyscallsNumbers zeroProbe syzkalls amd64 [⟨"read", "read"⟩]).value.Numbers =
      amd64.Numbers ++ (probeResult zeroProbe syzkalls amd64 [⟨"read", "read"⟩]).map
        (fun s => toInt (decimalValue s)) ∧
    (fetchSyscallsNumbers zeroProbe syzkalls
        (fetchSyscallsNumbers zeroProbe syzkalls amd64 [⟨"read", "read"⟩]).value
        [⟨"read", "read"⟩]).value.Numbers.length
      = 2 * [(⟨"read", "read"⟩ : Syscall)].length :=
  ⟨(fetchSyscallsNumbers_appends zeroProbe syzkalls amd64 [⟨"read", "read"⟩]
      (by decide)).2.1,
    ((fetchSyscallsNumbers_appends zeroProbe syzkalls amd64 [⟨"read", "read"⟩]
      (by decide)).2.2.2.2.2.2 rfl rfl).1⟩

/-- Claim C17. When every returned string parses, the number stored for a
string of value `n` is `n` if `n < 2^63` and `n - 2^64`, a negative number, if
`2^63 ≤ n < 2^64`; the string `18446744073709551615` is stored as `-1`; and a
digit string of value at least `2^64` does not parse, so that
`fetchSyscallsNumbers` fails when the probe returns one. -/
theorem stored_number_wraps (fetchValues : Probe) (tbl : List (String × Int)) (A : Arch)
    (S : List Syscall) :
    ((∀ s ∈ probeResult fetchValues tbl A S, ∃ n, ParseUint s = .ok n) →
      (fetchSyscallsNumbers fetchValues tbl A S).value.Numbers =
        A.Numbers ++ (probeResult fetchValues tbl A S).map (fun s =>
          if decimalValue s < 2 ^ 63 then (decimalValue s : Int)
          else (decimalValue s : Int) - 2 ^ 64)) ∧
    (∀ n : Nat, 2 ^ 63 ≤ n → n < 2 ^ 64 → toInt n = (n : Int) - 2 ^ 64 ∧ toInt n < 0) ∧
    (∀ n : Nat, n < 2 ^ 63 → toInt n = (n : Int)) ∧
    (parseValues ["18446744073709551615"] amd64).1.Numbers = [-1] ∧
    (∀ s : String, isDecimal s = true → 2 ^ 64 ≤ decimalValue s →
      (∃ e, ParseUint s = .error e) ∧
      (s ∈ probeResult fetchValues tbl A S →
        (fetchSyscallsNumbers fetchValues tbl A S).failure ≠ none)) ∧
    ParseUint "18446744073709551616" = .error .ErrRange := by
  have h63 : (2 : Nat) ^ 63 = 9223372036854775808 := by norm_num
  have h64 : (2 : Nat) ^ 64 = 18446744073709551616 := by norm_num
  have h64i : (2 : Int) ^ 64 = 18446744073709551616 := by norm_num
  refine ⟨?_, ?_, ?_, by decide, ?_, rfl⟩
  · intro hp
    have hval : ∀ s ∈ probeResult fetchValues tbl A S,
        isDecimal s = true ∧ decimalValue s < two64 := by
      intro s hs
      obtain ⟨n, hn⟩ := hp s hs
      have := (ParseUint_ok_iff s n).mp hn
      exact ⟨this.1, this.2.1 ▸ this.2.2⟩
    obtain ⟨_, hv⟩ := fetchSyscallsNumbers_ok fetchValues tbl A S hval
    rw [hv]
    show A.Numbers ++ _ = A.Numbers ++ _
    congr 1
    apply List.map_congr_left
    intro s hs
    have hlt := (hval s hs).2
    by_cases hsmall : decimalValue s < 2 ^ 63
    · rw [if_pos hsmall, toInt_small _ (by omega)]
    · rw [if_neg hsmall, toInt_large _ (by omega) hlt, h64i]
  · intro n h1 h2
    rw [toInt_large n (by omega) (by simp only [two64]; omega), h64i]
    exact ⟨rfl, by omega⟩
  · intro n h
    exact toInt_small n (by omega)
  · intro s hd hge
    have hbad : ¬ (isDecimal s = true ∧ decimalValue s < two64) := by
      rintro ⟨_, hlt⟩
      simp only [two64] at hlt
      omega
    refine ⟨(ParseUint_error_iff s).mpr hbad, ?_⟩
    intro hs
    obtain ⟨_, _, _, _, hf⟩ := fetchSyscallsNumbers_fail fetchValues tbl A S ⟨s, hs, hbad⟩
    simp [hf]

theorem stored_number_wraps_witness :
    (fetchSyscallsNumbers unsignedProbe syzkalls amd64 [⟨"read", "read"⟩]).value.Numbers =
      amd64.Numbers ++ (probeResult unsignedProbe syzkalls amd64 [⟨"read", "read"⟩]).map
        (fun s => if decimalValue s < 2 ^ 63 then (decimalValue s : Int)
          else (decimalValue s : Int) - 2 ^ 64) ∧
    (toInt 18446744073709551615 = ((18446744073709551615 : Nat) : Int) - 2 ^ 64 ∧
      toInt 18446744073709551615 < 0) ∧
    ((∃ e, ParseUint "18446744073709551616" = .error e) ∧
      (fetchSyscallsNumbers overflowProbe syzkalls amd64 [⟨"read", "read"⟩]).failure ≠ none) :=
  ⟨(stored_number_wraps unsignedProbe syzkalls amd64 [⟨"read", "read"⟩]).1
      (by
        intro s hs
        have hr : probeResult unsignedProbe syzkalls amd64 [⟨"read", "read"⟩]
            = ["18446744073709551615"] := by decide
        rw [hr, List.mem_singleton] at hs
        subst hs
        exact ⟨18446744073709551615, rfl⟩),
    (stored_number_wraps unsignedProbe syzkalls amd64 [⟨"read", "read"⟩]).2.1
      18446744073709551615 (by norm_num) (by norm_num),
    ((stored_number_wraps overflowProbe syzkalls amd64 [⟨"read", "read"⟩]).2.2.2.2.1
        "18446744073709551616" (by decide) (by decide)).1,
    ((stored_number_wraps overflowProbe syzkalls amd64 [⟨"read", "read"⟩]).2.2.2.2.1
        "18446744073709551616" (by decide) (by decide)).2 (by decide)⟩

/-- Claim C14, counterexample. With a probe that returns no value, on the
configured registry and the one syscall `read`, every resolution succeeds:
`fetchSyscallsNumbers` fails for no architecture. The three tables are written,
then `generateExecutorSyscalls` panics on `Numbers[0]` and `executor/syscalls.h`
is not written; so a run in which every resolution succeeds need not write the
header. -/
theorem header_write_counterexample :
    (∀ A ∈ archs,
      (fetchSyscallsNumbers emptyProbe syzkalls A [⟨"read", "read"⟩]).failure = none) ∧
    (generateSyscallsNumbers emptyProbe syzkalls archs [⟨"read", "read"⟩]).failure
      = some (.indexOutOfRange 0 0) ∧
    writtenFiles (generateSyscallsNumbers emptyProbe syzkalls archs [⟨"read", "read"⟩]).trace
      = ["sys/sys_amd64.go", "sys/sys_arm64.go", "sys/sys_ppc64le.go"] ∧
    "executor/syscalls.h" ∉
      writtenFiles (generateSyscallsNumbers emptyProbe syzkalls archs [⟨"read", "read"⟩]).trace ∧
    ¬ (∀ (fetchValues : Probe) (S : List Syscall),
        (∀ A ∈ archs, (fetchSyscallsNumbers fetchValues syzkalls A S).failure = none) →
        writtenFiles (generateSyscallsNumbers fetchValues syzkalls archs S).trace =
          ["sys/sys_amd64.go", "sys/sys_arm64.go", "sys/sys_ppc64le.go",
           "executor/syscalls.h"]) := by
  refine ⟨by decide, by decide, by decide, by decide, fun h => ?_⟩
  have := h emptyProbe [⟨"read", "read"⟩] (by decide)
  revert this
  decide

/-- Claim C14, amended. On a run in which every resolution succeeds and leaves
every architecture at least `len(S)` numbers, `generateSyscallsNumbers` does not
fail and its trace is, for each architecture in registry order, the probe call
followed by the one write of that architecture's table, and then the one write
of `executor/syscalls.h`; the text of the header holds, after the `#define`
block and the declaration of `call_t`, one block per architecture in registry
order, guarded by that architecture's `CARCH`; and for the configured registry
the files written are `sys/sys_amd64.go`, `sys/sys_arm64.go`,
`sys/sys_ppc64le.go`, `executor/syscalls.h`. -/
theorem generateSyscallsNumbers_trace (fetchValues : Probe) (tbl : List (String × Int))
    (reg : List Arch) (S : List Syscall)
    (hval : ∀ A ∈ reg, ∀ s ∈ probeResult fetchValues tbl A S,
      isDecimal s = true ∧ decimalValue s < 2 ^ 64)
    (hlen : ∀ A ∈ reg, S.length ≤ A.Numbers.length + (probeResult fetchValues tbl A S).length) :
    ∃ data : SyscallsData,
      executorData (reg.map fun A => (fetchSyscallsNumbers fetchValues tbl A S).value) tbl S
        = .ok data ∧
      generateSyscallsNumbers fetchValues tbl reg S =
        ⟨reg.map fun A => (fetchSyscallsNumbers fetchValues tbl A S).value,
          (reg.map fun A =>
            [Event.fetchValues A.KernelHeaderArch
                (S.map fun sc => "__NR_" ++ sc.CallName) [A.KernelInclude]
                (buildRequest tbl S ([], [])).2,
              Event.writeSource ("sys/sys_" ++ A.GOARCH ++ ".go")
                (archTempl (fetchSyscallsNumbers fetchValues tbl A S).value)]).flatten
            ++ [Event.writeFile "executor/syscalls.h" (syscallsTempl data)],
          none⟩ ∧
      syscallsTempl data =
        "// AUTOGENERATED FILE\n\n"
          ++ String.join (data.FakeCalls.map defineLine)
          ++ "\n\nstruct call_t \x7b\n\tconst char*\tname;\n\tint\t\tsys_nr;\n\x7d;\n\n"
          ++ String.join (reg.map fun A =>
              "\n" ++ guardLine A.CARCH ++ "\ncall_t syscalls[] = \x7b\n"
                ++ String.join ((List.zipWith (fun c nr => (⟨c.Name, nr⟩ : SyscallData)) S
                    (fetchSyscallsNumbers fetchValues tbl A S).value.Numbers).map callLine)
                ++ "\n\x7d;\n#endif\n")
          ++ "\n" ∧
      data.Archs.map (fun ad => ad.CARCH) = reg.map (fun A => A.CARCH) ∧
      writtenFiles (generateSyscallsNumbers fetchValues tbl reg S).trace =
        (reg.map fun A => "sys/sys_" ++ A.GOARCH ++ ".go") ++ ["executor/syscalls.h"] ∧
      (reg = archs →
        writtenFiles (generateSyscallsNumbers fetchValues tbl reg S).trace =
          ["sys/sys_amd64.go", "sys/sys_arm64.go", "sys/sys_ppc64le.go",
           "executor/syscalls.h"]) := by
  have h64 : (2 : Nat) ^ 64 = two64 := by simp [two64]
  rw [h64] at hval
  have hlen' : ∀ a ∈ reg.map (fun A => (fetchSyscallsNumbers fetchValues tbl A S).value),
      S.length ≤ a.Numbers.length := by
    intro a ha
    obtain ⟨A, hA, rfl⟩ := List.mem_map.mp ha
    rw [(fetchSyscallsNumbers_ok fetchValues tbl A S (hval A hA)).2]
    simpa using hlen A hA
  have hdata := executorData_eq _ tbl S hlen'
  have hrun := generateSyscallsNumbers_ok fetchValues tbl reg S hval
  have hexec : generateExecutorSyscalls
      (reg.map fun A => (fetchSyscallsNumbers fetchValues tbl A S).value) tbl S =
      ⟨(), [Event.writeFile "executor/syscalls.h" (syscallsTempl
        ⟨(reg.map fun A => (fetchSyscallsNumbers fetchValues tbl A S).value).map fun a =>
            ⟨a.CARCH, List.zipWith (fun c nr => ⟨c.Name, nr⟩) S a.Numbers⟩,
          sortSyscallArray (buildFakeCalls tbl [])⟩)], none⟩ := by
    simp only [generateExecutorSyscalls, hdata]
  rw [hexec] at hrun
  have hfiles : writtenFiles (generateSyscallsNumbers fetchValues tbl reg S).trace =
      (reg.map fun A => "sys/sys_" ++ A.GOARCH ++ ".go") ++ ["executor/syscalls.h"] := by
    rw [hrun]
    simp only [writtenFiles_append, writtenFiles_resolved, writtenFiles]
  have hblocks : ((reg.map fun A => (fetchSyscallsNumbers fetchValues tbl A S).value).map
      fun a => (⟨a.CARCH, List.zipWith (fun c nr => ⟨c.Name, nr⟩) S a.Numbers⟩ : ArchData)).map
        archBlock =
      reg.map fun A =>
        "\n" ++ guardLine A.CARCH ++ "\ncall_t syscalls[] = \x7b\n"
          ++ String.join ((List.zipWith (fun c nr => (⟨c.Name, nr⟩ : SyscallData)) S
              (fetchSyscallsNumbers fetchValues tbl A S).value.Numbers).map callLine)
          ++ "\n\x7d;\n#endif\n" := by
    rw [List.map_map, List.map_map]
    apply List.map_congr_left
    intro A _
    simp only [Function.comp, archBlock, fetchSyscallsNumbers_CARCH]
  refine ⟨_, hdata, hrun, ?_, ?_, hfiles, ?_⟩
  · simp only [syscallsTempl, hblocks]
  · simp only [List.map_map]
    apply List.map_congr_left
    intro A _
    exact fetchSyscallsNumbers_CARCH fetchValues tbl A S
  · intro hreg
    rw [hfiles, hreg]
    decide

theorem generateSyscallsNumbers_trace_witness :
    ∃ data : SyscallsData,
      executorData (archs.map fun A =>
          (fetchSyscallsNumbers zeroProbe syzkalls A [⟨"read", "read"⟩]).value)
        syzkalls [⟨"read", "read"⟩] = .ok data ∧
      generateSyscallsNumbers zeroProbe syzkalls archs [⟨"read", "read"⟩] =
        ⟨archs.map fun A => (fetchSyscallsNumbers zeroProbe syzkalls A [⟨"read", "read"⟩]).value,
          (archs.map fun A =>
            [Event.fetchValues A.KernelHeaderArch
                ([(⟨"read", "read"⟩ : Syscall)].map fun sc => "__NR_" ++ sc.CallName)
                [A.KernelInclude]
                (buildRequest syzkalls [⟨"read", "read"⟩] ([], [])).2,
              Event.writeSource ("sys/sys_" ++ A.GOARCH ++ ".go")
                (archTempl
                  (fetchSyscallsNumbers zeroProbe syzkalls A [⟨"read", "read"⟩]).value)]).flatten
            ++ [Event.writeFile "executor/syscalls.h" (syscallsTempl data)],
          none⟩ ∧
      syscallsTempl data =
        "// AUTOGENERATED FILE\n\n"
          ++ String.join (data.FakeCalls.map defineLine)
          ++ "\n\nstruct call_t \x7b\n\tconst char*\tname;\n\tint\t\tsys_nr;\n\x7d;\n\n"
          ++ String.join (archs.map fun A =>
              "\n" ++ guardLine A.CARCH ++ "\ncall_t syscalls[] = \x7b\n"
                ++ String.join ((List.zipWith (fun c nr => (⟨c.Name, nr⟩ : SyscallData))
                    [(⟨"read", "read"⟩ : Syscall)]
                    (fetchSyscallsNumbers zeroProbe syzkalls A
                      [⟨"read", "read"⟩]).value.Numbers).map callLine)
                ++ "\n\x7d;\n#endif\n")
          ++ "\n" ∧
      data.Archs.map (fun ad => ad.CARCH) = archs.map (fun A => A.CARCH) ∧
      writtenFiles (generateSyscallsNumbers zeroProbe syzkalls archs [⟨"read", "read"⟩]).trace =
        (archs.map fun A => "sys/sys_" ++ A.GOARCH ++ ".go") ++ ["executor/syscalls.h"] ∧
      (archs = archs →
        writtenFiles (generateSyscallsNumbers zeroProbe syzkalls archs [⟨"read", "read"⟩]).trace =
          ["sys/sys_amd64.go", "sys/sys_arm64.go", "sys/sys_ppc64le.go",
           "executor/syscalls.h"]) :=
  generateSyscallsNumbers_trace zeroProbe syzkalls archs [⟨"read", "read"⟩]
    (by decide) (by decide)

/-- Claim C18. In `generateExecutorSyscalls` every access `arch.Numbers[i]` is in
bounds, and the procedure does not fail, when every architecture of the
registry has `len(Numbers) ≥ len(syscalls)`; this holds when
`generateExecutorSyscalls` is reached from `generateSyscallsNumbers` with every
`Numbers` initially empty and a probe that returns exactly one valid value per
symbol, and then the run does not fail; and when every returned value is valid
but the probe returned fewer values than `len(syscalls)` for some
architecture, the run fails with an index out of range. -/
theorem numbers_index_in_bounds (fetchValues : Probe) (tbl : List (String × Int))
    (reg : List Arch) (S : List Syscall) :
    ((∀ a ∈ reg, S.length ≤ a.Numbers.length) →
      (generateExecutorSyscalls reg tbl S).failure = none ∧
      ∀ a ∈ reg, ∀ i, i < S.length → a.Numbers[i]? ≠ none) ∧
    ((∀ a ∈ reg, a.Numbers = []) →
      (∀ a ∈ reg, (probeResult fetchValues tbl a S).length = S.length ∧
        ∀ s ∈ probeResult fetchValues tbl a S,
          isDecimal s = true ∧ decimalValue s < 2 ^ 64) →
      (∀ a ∈ (generateSyscallsNumbers fetchValues tbl reg S).value,
        S.length ≤ a.Numbers.length) ∧
      (generateSyscallsNumbers fetchValues tbl reg S).failure = none) ∧
    ((∀ a ∈ reg, a.Numbers = []) →
      (∀ a ∈ reg, ∀ s ∈ probeResult fetchValues tbl a S,
        isDecimal s = true ∧ decimalValue s < 2 ^ 64) →
      (∃ a ∈ reg, (probeResult fetchValues tbl a S).length < S.length) →
      ∃ i n, (generateSyscallsNumbers fetchValues tbl reg S).failure
          = some (.indexOutOfRange i n) ∧ n ≤ i ∧ i < S.length) := by
  have h64 : (2 : Nat) ^ 64 = two64 := by simp [two64]
  rw [h64]
  refine ⟨?_, ?_, ?_⟩
  · intro h
    refine ⟨?_, ?_⟩
    · simp only [generateExecutorSyscalls, executorData_eq reg tbl S h]
    · intro a ha i hi hnone
      have := List.getElem?_eq_none_iff.mp hnone
      have := h a ha
      omega
  · intro hempty hprobe
    have hval : ∀ A ∈ reg, ∀ s ∈ probeResult fetchValues tbl A S,
        isDecimal s = true ∧ decimalValue s < two64 := fun A hA => (hprobe A hA).2
    have hrun := generateSyscallsNumbers_ok fetchValues tbl reg S hval
    have hlen' : ∀ a ∈ reg.map (fun A => (fetchSyscallsNumbers fetchValues tbl A S).value),
        S.length ≤ a.Numbers.length := by
      intro a ha
      obtain ⟨A, hA, rfl⟩ := List.mem_map.mp ha
      rw [(fetchSyscallsNumbers_ok fetchValues tbl A S (hval A hA)).2]
      simp [hempty A hA, (hprobe A hA).1]
    rw [hrun]
    refine ⟨hlen', ?_⟩
    simp only [generateExecutorSyscalls, executorData_eq _ tbl S hlen']
  · intro hempty hval hshort
    have hrun := generateSyscallsNumbers_ok fetchValues tbl reg S hval
    obtain ⟨A, hA, hAlen⟩ := hshort
    have hshort' : ∃ a ∈ reg.map (fun A => (fetchSyscallsNumbers fetchValues tbl A S).value),
        a.Numbers.length < S.length := by
      refine ⟨_, List.mem_map.mpr ⟨A, hA, rfl⟩, ?_⟩
      rw [(fetchSyscallsNumbers_ok fetchValues tbl A S (hval A hA)).2]
      simpa [hempty A hA] using hAlen
    obtain ⟨n, hn, hnl⟩ := buildArchs_short S _ [] hshort'
    refine ⟨n, n, ?_, le_refl n, hnl⟩
    rw [hrun]
    simp only [generateExecutorSyscalls, executorData, hn]

theorem numbers_index_in_bounds_witness :
    ((generateExecutorSyscalls [archX] syzkalls [⟨"read", "read"⟩]).failure = none ∧
      ∀ a ∈ [archX], ∀ i, i < [(⟨"read", "read"⟩ : Syscall)].length → a.Numbers[i]? ≠ none) ∧
    ((∀ a ∈ (generateSyscallsNumbers zeroProbe syzkalls archs [⟨"read", "read"⟩]).value,
        [(⟨"read", "read"⟩ : Syscall)].length ≤ a.Numbers.length) ∧
      (generateSyscallsNumbers zeroProbe syzkalls archs [⟨"read", "read"⟩]).failure = none) ∧
    (∃ i n, (generateSyscallsNumbers emptyProbe syzkalls archs [⟨"read", "read"⟩]).failure
        = some (.indexOutOfRange i n) ∧ n ≤ i ∧ i < [(⟨"read", "read"⟩ : Syscall)].length) :=
  ⟨(numbers_index_in_bounds zeroProbe syzkalls [archX] [⟨"read", "read"⟩]).1 (by decide),
    (numbers_index_in_bounds zeroProbe syzkalls archs [⟨"read", "read"⟩]).2.1
      (by decide) (by decide),
    (numbers_index_in_bounds emptyProbe syzkalls archs [⟨"read", "read"⟩]).2.2
      (by decide) (by decide) ⟨amd64, by decide, by decide⟩⟩

end Sysgen
